import Mathlib

/-!
# PhoneChain: the hash-linked ledger of `server.js`

A shallow embedding of the `Block` and `Blockchain` classes of
`src/phoneminehash/server.js`, and theorems about them.

Conventions of the embedding.

* JavaScript strings are Lean `String`s (sequences of Unicode scalar values).
* `index` and `nonce` are natural numbers. `nonce++` on an IEEE double is exact
  below `2^53` and stalls at `2^53`; `nextNonce` keeps that. Every number that
  is rendered into a digest preimage is an integer below `10^21`, where the
  JavaScript number-to-string conversion is plain decimal.
* Transaction payloads are JSON values (`JsonValue`), the data a request body
  can carry; numbers are restricted to integers.
* The digest primitive of the `crypto` library is a parameter `H` of every
  operation. General theorems hold for every `H`; concrete scenarios are
  evaluated with `sha256hex`, an executable SHA-256 over the UTF-8 bytes,
  which is what `createHash("sha256").update(s).digest("hex")` computes.
* `Date.now()` is an explicit integer argument `now` of the operations that
  read the clock.
* A `while` loop is a function with a fuel argument bounding the number of
  iterations. A call ends in an `Outcome`: it returns a result, it throws, or
  the fuel runs out; "the call returns" means that some fuel gives `returned`,
  "the call never ends" that every fuel gives `outOfFuel`.
* A field of a block holds a value of the type the program gives it (a number
  for `index` and `nonce`, a string for `timestamp`, `previousHash` and
  `hash`). `LooseBlock` lifts that where a claim is about fields overwritten
  from outside with values of another type.
-/

namespace PhoneChain

/-! ## SHA-256 (FIPS 180-4), hexadecimal digest -/

/-- UTF-8 bytes of one character. -/
def utf8Char (c : Char) : List Nat :=
  let n := c.toNat
  if n < 0x80 then [n]
  else if n < 0x800 then [0xC0 + n / 0x40, 0x80 + n % 0x40]
  else if n < 0x10000 then [0xE0 + n / 0x1000, 0x80 + n / 0x40 % 0x40, 0x80 + n % 0x40]
  else [0xF0 + n / 0x40000, 0x80 + n / 0x1000 % 0x40, 0x80 + n / 0x40 % 0x40, 0x80 + n % 0x40]

/-- UTF-8 bytes of a string, the default encoding of `hash.update(string)`. -/
def utf8 (s : String) : List Nat := s.data.flatMap utf8Char

/-- Truncation to a 32-bit word. -/
def w32 (n : Nat) : Nat := n % 4294967296

/-- Right rotation of a 32-bit word. -/
def rotr (x k : Nat) : Nat := w32 (x >>> k ||| x <<< (32 - k))

/-- The 64 round constants of SHA-256. -/
def shaK : List Nat := [
  0x428a2f98, 0x71374491, 0xb5c0fbcf, 0xe9b5dba5, 0x3956c25b, 0x59f111f1, 0x923f82a4, 0xab1c5ed5,
  0xd807aa98, 0x12835b01, 0x243185be, 0x550c7dc3, 0x72be5d74, 0x80deb1fe, 0x9bdc06a7, 0xc19bf174,
  0xe49b69c1, 0xefbe4786, 0x0fc19dc6, 0x240ca1cc, 0x2de92c6f, 0x4a7484aa, 0x5cb0a9dc, 0x76f988da,
  0x983e5152, 0xa831c66d, 0xb00327c8, 0xbf597fc7, 0xc6e00bf3, 0xd5a79147, 0x06ca6351, 0x14292967,
  0x27b70a85, 0x2e1b2138, 0x4d2c6dfc, 0x53380d13, 0x650a7354, 0x766a0abb, 0x81c2c92e, 0x92722c85,
  0xa2bfe8a1, 0xa81a664b, 0xc24b8b70, 0xc76c51a3, 0xd192e819, 0xd6990624, 0xf40e3585, 0x106aa070,
  0x19a4c116, 0x1e376c08, 0x2748774c, 0x34b0bcb5, 0x391c0cb3, 0x4ed8aa4a, 0x5b9cca4f, 0x682e6ff3,
  0x748f82ee, 0x78a5636f, 0x84c87814, 0x8cc70208, 0x90befffa, 0xa4506ceb, 0xbef9a3f7, 0xc67178f2]

/-- Message padding: a 0x80 byte, zero bytes up to 56 modulo 64, then the bit
length of the message on 8 bytes, big-endian. -/
def shaPad (m : List Nat) : List Nat :=
  let l := m.length
  let z := (119 - l % 64) % 64
  m ++ 0x80 :: List.replicate z 0 ++
    (List.range 8).map (fun i => (l * 8) >>> (8 * (7 - i)) % 256)

/-- The first `k` big-endian 32-bit words of a byte list. -/
def beWords : Nat → List Nat → List Nat
  | 0, _ => []
  | k + 1, bs => (bs.take 4).foldl (fun a b => a * 256 + b) 0 :: beWords k (bs.drop 4)

/-- The next `k` words of the message schedule, from a window holding the
last 16 words. -/
def shaSchedule : Nat → List Nat → List Nat
  | 0, _ => []
  | k + 1, win =>
    let w0 := win.getD 0 0
    let w1 := win.getD 1 0
    let w9 := win.getD 9 0
    let w14 := win.getD 14 0
    let s0 := rotr w1 7 ^^^ rotr w1 18 ^^^ (w1 >>> 3)
    let s1 := rotr w14 17 ^^^ rotr w14 19 ^^^ (w14 >>> 10)
    w0 :: shaSchedule k (win.drop 1 ++ [w32 (w0 + s0 + w9 + s1)])

/-- The eight working variables of the compression function. -/
structure ShaState where
  a : Nat
  b : Nat
  c : Nat
  d : Nat
  e : Nat
  f : Nat
  g : Nat
  h : Nat

/-- One round of the compression function, on a round constant and a
schedule word. -/
def shaRound (s : ShaState) (kw : Nat × Nat) : ShaState :=
  let S1 := rotr s.e 6 ^^^ rotr s.e 11 ^^^ rotr s.e 25
  let ch := (s.e &&& s.f) ^^^ ((4294967295 - s.e) &&& s.g)
  let t1 := s.h + S1 + ch + kw.1 + kw.2
  let S0 := rotr s.a 2 ^^^ rotr s.a 13 ^^^ rotr s.a 22
  let mj := (s.a &&& s.b) ^^^ (s.a &&& s.c) ^^^ (s.b &&& s.c)
  ⟨w32 (t1 + S0 + mj), s.a, s.b, s.c, w32 (s.d + t1), s.e, s.f, s.g⟩

/-- Compression of one 64-byte block into the chaining value. -/
def shaCompress (s : ShaState) (block : List Nat) : ShaState :=
  let r := (shaK.zip (shaSchedule 64 (beWords 16 block))).foldl shaRound s
  ⟨w32 (s.a + r.a), w32 (s.b + r.b), w32 (s.c + r.c), w32 (s.d + r.d),
   w32 (s.e + r.e), w32 (s.f + r.f), w32 (s.g + r.g), w32 (s.h + r.h)⟩

/-- Compression of the first `k` blocks of a padded message. -/
def shaBlocks : Nat → ShaState → List Nat → ShaState
  | 0, s, _ => s
  | k + 1, s, bs => shaBlocks k (shaCompress s (bs.take 64)) (bs.drop 64)

/-- Lower-case hexadecimal digit of a number below 16. -/
def hexDigit (n : Nat) : Char :=
  if n < 10 then Char.ofNat (48 + n) else Char.ofNat (87 + n)

/-- The eight hexadecimal digits of a 32-bit word. -/
def hexWord (w : Nat) : List Char :=
  (List.range 8).map (fun i => hexDigit (w >>> (4 * (7 - i)) % 16))

/-- SHA-256 of the UTF-8 bytes of a string, as 64 lower-case hexadecimal
digits: `crypto.createHash("sha256").update(s).digest("hex")`. -/
def sha256hex (s : String) : String :=
  let p := shaPad (utf8 s)
  let r := shaBlocks (p.length / 64) ⟨0x6a09e667, 0xbb67ae85, 0x3c6ef372, 0xa54ff53a,
    0x510e527f, 0x9b05688c, 0x1f83d9ab, 0x5be0cd19⟩ p
  String.mk ([r.a, r.b, r.c, r.d, r.e, r.f, r.g, r.h].flatMap hexWord)

/-! ## JSON values and `JSON.stringify` -/

/-- JSON values: the payloads a transaction can carry. Numbers are integers
(rendered in plain decimal, as JavaScript does below `10^21`). An object is
the list of its properties in enumeration order. -/
inductive JsonValue where
  | null
  | bool (b : Bool)
  | num (n : Int)
  | str (s : String)
  | arr (items : List JsonValue)
  | obj (fields : List (String × JsonValue))

mutual
/-- Boolean equality of JSON values. -/
def JsonValue.beq : JsonValue → JsonValue → Bool
  | .null, .null => true
  | .bool a, .bool b => a == b
  | .num a, .num b => a == b
  | .str a, .str b => a == b
  | .arr a, .arr b => JsonValue.beqItems a b
  | .obj a, .obj b => JsonValue.beqFields a b
  | _, _ => false
/-- Boolean equality of lists of JSON values. -/
def JsonValue.beqItems : List JsonValue → List JsonValue → Bool
  | [], [] => true
  | x :: xs, y :: ys => JsonValue.beq x y && JsonValue.beqItems xs ys
  | _, _ => false
/-- Boolean equality of property lists. -/
def JsonValue.beqFields : List (String × JsonValue) → List (String × JsonValue) → Bool
  | [], [] => true
  | (k, x) :: xs, (l, y) :: ys => k == l && JsonValue.beq x y && JsonValue.beqFields xs ys
  | _, _ => false
end

mutual
theorem JsonValue.beq_iff : ∀ a b : JsonValue, JsonValue.beq a b = true ↔ a = b
  | .null, b => by cases b <;> simp [JsonValue.beq]
  | .bool a, b => by cases b <;> simp [JsonValue.beq]
  | .num a, b => by cases b <;> simp [JsonValue.beq]
  | .str a, b => by cases b <;> simp [JsonValue.beq]
  | .arr a, b => by
    cases b <;> simp [JsonValue.beq]
    exact JsonValue.beqItems_iff a _
  | .obj a, b => by
    cases b <;> simp [JsonValue.beq]
    exact JsonValue.beqFields_iff a _
theorem JsonValue.beqItems_iff : ∀ a b : List JsonValue, JsonValue.beqItems a b = true ↔ a = b
  | [], b => by cases b <;> simp [JsonValue.beqItems]
  | x :: xs, b => by
    cases b with
    | nil => simp [JsonValue.beqItems]
    | cons y ys => simp [JsonValue.beqItems, JsonValue.beq_iff x y, JsonValue.beqItems_iff xs ys]
theorem JsonValue.beqFields_iff : ∀ a b : List (String × JsonValue),
    JsonValue.beqFields a b = true ↔ a = b
  | [], b => by cases b <;> simp [JsonValue.beqFields]
  | (k, x) :: xs, b => by
    cases b with
    | nil => simp [JsonValue.beqFields]
    | cons y ys =>
      obtain ⟨l, y⟩ := y
      simp [JsonValue.beqFields, JsonValue.beq_iff x y, JsonValue.beqFields_iff xs ys, and_assoc]
end

instance : DecidableEq JsonValue := fun a b =>
  decidable_of_iff (JsonValue.beq a b = true) (JsonValue.beq_iff a b)

/-- The double quote character. -/
def dquote : Char := Char.ofNat 34

/-- The backslash character. -/
def bslash : Char := Char.ofNat 92

/-- One character of a string inside a JSON string literal (QuoteJSONString):
the quote and the backslash are escaped, the control characters below U+0020
are written with their short escape or as a four-digit hexadecimal escape,
every other character stands for itself. -/
def escapeChar (c : Char) : List Char :=
  if c = dquote then [bslash, dquote]
  else if c = bslash then [bslash, bslash]
  else if c.toNat = 8 then [bslash, 'b']
  else if c.toNat = 12 then [bslash, 'f']
  else if c.toNat = 10 then [bslash, 'n']
  else if c.toNat = 13 then [bslash, 'r']
  else if c.toNat = 9 then [bslash, 't']
  else if c.toNat < 32 then
    [bslash, 'u', '0', '0', hexDigit (c.toNat / 16), hexDigit (c.toNat % 16)]
  else [c]

/-- A string as a JSON string literal. -/
def quoteJson (s : String) : List Char :=
  dquote :: s.data.flatMap escapeChar ++ [dquote]

mutual
/-- The characters of `JSON.stringify(v)`. -/
def stringifyChars : JsonValue → List Char
  | .null => ['n', 'u', 'l', 'l']
  | .bool true => ['t', 'r', 'u', 'e']
  | .bool false => ['f', 'a', 'l', 's', 'e']
  | .num n => (toString n).data
  | .str s => quoteJson s
  | .arr xs => '[' :: stringifyItems xs
  | .obj fs => '\x7b' :: stringifyFields fs
/-- The elements of an array, separated by commas, and the closing bracket. -/
def stringifyItems : List JsonValue → List Char
  | [] => [']']
  | [x] => stringifyChars x ++ [']']
  | x :: y :: t => stringifyChars x ++ ',' :: stringifyItems (y :: t)
/-- The properties of an object, separated by commas, and the closing brace. -/
def stringifyFields : List (String × JsonValue) → List Char
  | [] => ['\x7d']
  | [(k, v)] => quoteJson k ++ ':' :: stringifyChars v ++ ['\x7d']
  | (k, v) :: f :: t => quoteJson k ++ ':' :: stringifyChars v ++ ',' :: stringifyFields (f :: t)
end

/-- The string `JSON.stringify(v)`. -/
def stringify (v : JsonValue) : String := String.mk (stringifyChars v)

/-! ## Block -/

/-- The fields of `class Block`. `transactions` is the sentinel string in the
genesis block and an array of payloads in every other block. -/
structure Block where
  index : Nat
  timestamp : String
  transactions : JsonValue
  previousHash : String
  nonce : Nat
  hash : String
deriving DecidableEq

/-- The argument of `update(...)` in `calculateHash`:
`index + timestamp + JSON.stringify(transactions) + previousHash + nonce`. -/
def Block.preimage (b : Block) : String :=
  toString b.index ++ b.timestamp ++ stringify b.transactions ++ b.previousHash ++
    toString b.nonce

/-- `calculateHash()`: the digest of the preimage. -/
def Block.calculateHash (H : String → String) (b : Block) : String :=
  H b.preimage

/-- `calculateHash()` as a method call on a mutable block: the digest, and the
block after the call. The method contains no assignment. -/
def Block.calculateHashCall (H : String → String) (b : Block) : String × Block :=
  (b.calculateHash H, b)

/-- `new Block(index, timestamp, transactions, previousHash)`. -/
def Block.new (H : String → String) (index : Nat) (timestamp : String)
    (transactions : JsonValue) (previousHash : String) : Block :=
  let b : Block :=
    { index := index, timestamp := timestamp, transactions := transactions,
      previousHash := previousHash, nonce := 0, hash := "" }
  { b with hash := b.calculateHash H }

/-- `s.substring(0, d)`. -/
def substring0 (s : String) (d : Nat) : String := String.mk (s.data.take d)

/-- `Array(d + 1).join("0")`: the string of `d` zero characters, and `none`
when `Array(d + 1)` throws a `RangeError`: `d + 1` is an array length only
below `2^32`. (An engine may refuse strings well below that length; that
limit is not part of the language and is not modelled.) -/
def zeros (d : Nat) : Option String :=
  if d + 1 < 4294967296 then some (String.mk (List.replicate d '0')) else none

/-- The hash passes the difficulty test: `hash.substring(0, d)` is the string
of `d` zero characters. -/
def meetsDifficulty (hash : String) (d : Nat) : Bool :=
  substring0 hash d == String.mk (List.replicate d '0')

/-- The condition of the loop of `mineBlock`,
`hash.substring(0, difficulty) !== Array(difficulty + 1).join("0")`:
`some true` to go on, `some false` to leave the loop, `none` when the
evaluation throws. -/
def loopCondition (hash : String) (d : Nat) : Option Bool :=
  match zeros d with
  | none => none
  | some z => some (substring0 hash d != z)

/-- How a call that may loop or throw ends. -/
inductive Outcome (α : Type) where
  | returned (a : α)
  | threw
  | outOfFuel
deriving DecidableEq

/-- `nonce++` on a double holding a non-negative integer. -/
def nextNonce (n : Nat) : Nat := if n < 2 ^ 53 then n + 1 else n

/-- One iteration of the loop of `mineBlock`:
`this.nonce++; this.hash = this.calculateHash()`. -/
def Block.mineStep (H : String → String) (b : Block) : Block :=
  let b1 : Block := { b with nonce := nextNonce b.nonce }
  { b1 with hash := b1.calculateHash H }

/-- The block after `k` iterations of the loop body. -/
def Block.mineIter (H : String → String) : Nat → Block → Block
  | 0, b => b
  | k + 1, b => Block.mineIter H k (b.mineStep H)

/-- `mineBlock(difficulty)` with at most `fuel` loop iterations: the block
when the loop is left, `threw` when the loop condition throws, `outOfFuel`
when the fuel runs out first. The `console.log` after the loop is not
modelled. -/
def Block.mineBlock (H : String → String) : Nat → Block → Nat → Outcome Block
  | 0, b, d =>
    match loopCondition b.hash d with
    | none => .threw
    | some false => .returned b
    | some true => .outOfFuel
  | fuel + 1, b, d =>
    match loopCondition b.hash d with
    | none => .threw
    | some false => .returned b
    | some true => Block.mineBlock H fuel (b.mineStep H) d

/-! ## Blockchain -/

/-- The fields of `class Blockchain`. -/
structure Blockchain where
  chain : List Block
  difficulty : Nat
  pendingTransactions : List JsonValue
deriving DecidableEq

/-- `createGenesisBlock()`, reading the clock as `now`. -/
def createGenesisBlock (H : String → String) (now : Int) : Block :=
  Block.new H 0 (toString now) (.str "Genesis Block") "0"

/-- `new Blockchain()`, reading the clock as `now`. -/
def Blockchain.new (H : String → String) (now : Int) : Blockchain :=
  { chain := [createGenesisBlock H now], difficulty := 3, pendingTransactions := [] }

/-- `getLatestBlock()`: `chain[chain.length - 1]`, `none` for `undefined`. -/
def Blockchain.getLatestBlock (L : Blockchain) : Option Block :=
  L.chain[L.chain.length - 1]?

/-- `minePendingTransactions()`, reading the clock as `now`, with at most
`fuel` iterations of the mining loop. Reading `.hash` of `undefined` (empty
chain) throws, and an exception of `mineBlock` goes through: the block is
not appended and the queue is kept. -/
def Blockchain.minePendingTransactions (H : String → String) (fuel : Nat) (now : Int)
    (L : Blockchain) : Outcome Blockchain :=
  match L.getLatestBlock with
  | none => .threw
  | some tip =>
    let block := Block.new H L.chain.length (toString now) (.arr L.pendingTransactions) tip.hash
    match block.mineBlock H fuel L.difficulty with
    | .outOfFuel => .outOfFuel
    | .threw => .threw
    | .returned mined =>
      .returned { L with chain := L.chain ++ [mined], pendingTransactions := [] }

/-- `addTransaction(transaction)`. -/
def Blockchain.addTransaction (L : Blockchain) (transaction : JsonValue) : Blockchain :=
  { L with pendingTransactions := L.pendingTransactions ++ [transaction] }

/-- The loop of `isChainValid` from position `i`, with at most `fuel`
iterations: `for (; i < chain.length; i++)`. -/
def isChainValidLoop (H : String → String) (chain : List Block) : Nat → Nat → Bool
  | 0, _ => true
  | fuel + 1, i =>
    if i < chain.length then
      match chain[i]?, chain[i - 1]? with
      | some current, some previous =>
        if current.hash ≠ current.calculateHash H then false
        else if current.previousHash ≠ previous.hash then false
        else isChainValidLoop H chain fuel (i + 1)
      | _, _ => false
    else true

/-- `isChainValid()`: the loop starts at `i = 1` and runs at most
`chain.length` times. -/
def Blockchain.isChainValid (H : String → String) (L : Blockchain) : Bool :=
  isChainValidLoop H L.chain L.chain.length 1

/-- `isChainValid()` as a method call on the mutable ledger: the result, and
the ledger after the call. The method contains no assignment. -/
def Blockchain.isChainValidCall (H : String → String) (L : Blockchain) : Bool × Blockchain :=
  (L.isChainValid H, L)

/-- The ledger states reached from `new Blockchain()` by `addTransaction` and
`minePendingTransactions` calls that return, with any payloads and any clock
readings. -/
inductive Reachable (H : String → String) : Blockchain → Prop where
  | init (now : Int) : Reachable H (Blockchain.new H now)
  | add (L : Blockchain) (tx : JsonValue) :
      Reachable H L → Reachable H (L.addTransaction tx)
  | mine (L L' : Blockchain) (fuel : Nat) (now : Int) :
      Reachable H L → L.minePendingTransactions H fuel now = .returned L' → Reachable H L'

/-- The two checks of the body of the loop of `isChainValid` at position `i`. -/
def checksAt (H : String → String) (chain : List Block) (i : Nat) : Prop :=
  ∀ current previous, chain[i]? = some current → chain[i - 1]? = some previous →
    current.hash = current.calculateHash H ∧ current.previousHash = previous.hash

/-! ## Concrete scenario data -/

/-- The payload of the concrete scenario. -/
def demoTx : JsonValue :=
  .obj [("to", .str "+15551234567"), ("message", .str "hi"), ("sid", .str "SM1"),
    ("timestamp", .str "t1")]

/-- The genesis block created at clock reading 1700000000000. -/
def demoGenesis : Block :=
  { index := 0, timestamp := "1700000000000", transactions := .str "Genesis Block",
    previousHash := "0", nonce := 0,
    hash := "48c2aefc6d179fdee9d852023da0b679dc0dba8c0dd59ac5da61a8fe0fb252d5" }

/-- The block sealed by committing `demoTx` at clock reading 1700000002994. -/
def demoBlock1 : Block :=
  { index := 1, timestamp := "1700000002994", transactions := .arr [demoTx],
    previousHash := "48c2aefc6d179fdee9d852023da0b679dc0dba8c0dd59ac5da61a8fe0fb252d5",
    nonce := 1,
    hash := "000f1a8ff260da23f33e7ad2ce36d4d851cf1b7291d9b1bd355ac9b0e5c8c4f3" }

/-- The ledger after `new Blockchain()`, `addTransaction(demoTx)` and one
commit. -/
def demoLedger : Blockchain :=
  { chain := [demoGenesis, demoBlock1], difficulty := 3, pendingTransactions := [] }

/-- The block sealed by a commit with an empty pending queue on the genesis
block alone, at clock reading 1700000000493. -/
def demoEmptyBlock : Block :=
  { index := 1, timestamp := "1700000000493", transactions := .arr [],
    previousHash := "48c2aefc6d179fdee9d852023da0b679dc0dba8c0dd59ac5da61a8fe0fb252d5",
    nonce := 1,
    hash := "0004f7283ed66a98f017a9685488900936b9326b41137602866f5a6448fdc032" }

/-- A block built by the constructor on the genesis block and never mined. -/
def demoUnmined : Block :=
  { index := 1, timestamp := "1700000000001", transactions := .arr [],
    previousHash := "48c2aefc6d179fdee9d852023da0b679dc0dba8c0dd59ac5da61a8fe0fb252d5",
    nonce := 0,
    hash := "66e437f26732f8bd35369a1c3db1003666ece128b60869b57c86d0586d73968c" }

/-! ## Decoding devices used to state unique readability -/

/-- The decimal digit characters. -/
def isDecDigit (c : Char) : Prop := 48 ≤ c.toNat ∧ c.toNat ≤ 57

/-- The value of a lower-case hexadecimal digit. -/
def hexVal (c : Char) : Nat := if c.toNat < 58 then c.toNat - 48 else c.toNat - 87

/-- Reads back the first escaped character of the body of a JSON string
literal: the inverse of `escapeChar` on the head of a list. -/
def unescapeHead : List Char → Option (Char × List Char)
  | [] => none
  | a :: rest =>
    if a ≠ bslash then some (a, rest)
    else match rest with
      | [] => none
      | b :: rest' =>
        if b = dquote then some (dquote, rest')
        else if b = bslash then some (bslash, rest')
        else if b = 'b' then some (Char.ofNat 8, rest')
        else if b = 'f' then some (Char.ofNat 12, rest')
        else if b = 'n' then some (Char.ofNat 10, rest')
        else if b = 'r' then some (Char.ofNat 13, rest')
        else if b = 't' then some (Char.ofNat 9, rest')
        else match rest' with
          | _ :: _ :: h1 :: h2 :: rest'' =>
            some (Char.ofNat (16 * hexVal h1 + hexVal h2), rest'')
          | _ => none

/-- The constructor of a JSON value, as a number. -/
def JsonValue.kind : JsonValue → Nat
  | .null => 0
  | .bool _ => 1
  | .num _ => 2
  | .str _ => 3
  | .arr _ => 4
  | .obj _ => 5

/-- The kind of JSON value a character can start, 6 for none. -/
def charKind (c : Char) : Nat :=
  if c.toNat = 110 then 0
  else if c.toNat = 116 ∨ c.toNat = 102 then 1
  else if (48 ≤ c.toNat ∧ c.toNat ≤ 57) ∨ c.toNat = 45 then 2
  else if c.toNat = 34 then 3
  else if c.toNat = 91 then 4
  else if c.toNat = 123 then 5
  else 6

/-! ## Tampering -/

/-- Block `c` is block `b` with exactly one field replaced by a different
value of the type of that field: a natural number for `index` and `nonce`, a
string for `timestamp`, `previousHash` and `hash`, JSON data for
`transactions`. Replacements by a value of another type are not of this form;
`LooseBlock` has them. -/
def Block.oneFieldReplaced (b c : Block) : Prop :=
  (∃ v, v ≠ b.index ∧ c = { b with index := v }) ∨
  (∃ v, v ≠ b.timestamp ∧ c = { b with timestamp := v }) ∨
  (∃ v, v ≠ b.transactions ∧ c = { b with transactions := v }) ∨
  (∃ v, v ≠ b.previousHash ∧ c = { b with previousHash := v }) ∨
  (∃ v, v ≠ b.nonce ∧ c = { b with nonce := v }) ∨
  (∃ v, v ≠ b.hash ∧ c = { b with hash := v })

/-- The ledger with `chain[i]` overwritten in place by `c`, nothing
recomputed. -/
def Blockchain.tamper (L : Blockchain) (i : Nat) (c : Block) : Blockchain :=
  { L with chain := L.chain.set i c }

/-- The payload of the concrete scenario with its message changed. -/
def demoTamperedTx : JsonValue :=
  .obj [("to", .str "+15551234567"), ("message", .str "tampered"), ("sid", .str "SM1"),
    ("timestamp", .str "t1")]

/-! ## Fields overwritten with values of another type

The fields of a block object can be assigned any value from outside. The
definitions below let `index`, `timestamp`, `previousHash`, `nonce` and `hash`
hold a number or a string, with the `+` and `!==` of the language. -/

/-- A number (a natural number) or a string. -/
inductive JsScalar where
  | num (n : Nat)
  | str (s : String)
deriving DecidableEq

/-- The string a value becomes when it is concatenated to a string. -/
def JsScalar.toText : JsScalar → String
  | .num n => toString n
  | .str s => s

/-- The operator `+`: the sum of two numbers, and otherwise the concatenation
of the two values as strings. -/
def JsScalar.add (a b : JsScalar) : JsScalar :=
  match a, b with
  | .num m, .num n => .num (m + n)
  | _, _ => .str (a.toText ++ b.toText)

/-- A block object whose scalar fields hold a number or a string. -/
structure LooseBlock where
  index : JsScalar
  timestamp : JsScalar
  transactions : JsonValue
  previousHash : JsScalar
  nonce : JsScalar
  hash : JsScalar
deriving DecidableEq

/-- `calculateHash()` on such a block: the digest of
`index + timestamp + JSON.stringify(transactions) + previousHash + nonce`. -/
def LooseBlock.calculateHash (H : String → String) (b : LooseBlock) : String :=
  H ((((b.index.add b.timestamp).add (.str (stringify b.transactions))).add
    b.previousHash).add b.nonce).toText

/-- The loop of `isChainValid` on such blocks; `!==` tells a number from a
string. -/
def looseIsChainValidLoop (H : String → String) (chain : List LooseBlock) : Nat → Nat → Bool
  | 0, _ => true
  | fuel + 1, i =>
    if i < chain.length then
      match chain[i]?, chain[i - 1]? with
      | some current, some previous =>
        if current.hash ≠ .str (current.calculateHash H) then false
        else if current.previousHash ≠ previous.hash then false
        else looseIsChainValidLoop H chain fuel (i + 1)
      | _, _ => false
    else true

/-- `isChainValid()` on a chain of such blocks. -/
def looseIsChainValid (H : String → String) (chain : List LooseBlock) : Bool :=
  looseIsChainValidLoop H chain chain.length 1

/-- A block with its fields at the types the program gives them. -/
def Block.toLoose (b : Block) : LooseBlock :=
  { index := .num b.index, timestamp := .str b.timestamp, transactions := b.transactions,
    previousHash := .str b.previousHash, nonce := .num b.nonce, hash := .str b.hash }

/-! ## Steps of the ledger -/

/-- One call on the ledger that returns: `addTransaction` with some payload,
or `minePendingTransactions` at some clock reading. -/
inductive Step (H : String → String) : Blockchain → Blockchain → Prop where
  | add (L : Blockchain) (tx : JsonValue) : Step H L (L.addTransaction tx)
  | mine (L L' : Blockchain) (fuel : Nat) (now : Int) :
      L.minePendingTransactions H fuel now = .returned L' → Step H L L'

/-- A finite sequence of calls on the ledger, each of which returns. -/
inductive Steps (H : String → String) : Blockchain → Blockchain → Prop where
  | refl (L : Blockchain) : Steps H L L
  | tail (L M N : Blockchain) : Steps H L M → Step H M N → Steps H L N

/-- The block sealed by a second commit, with an empty pending queue, on
`demoLedger` at clock reading 1700000004541. -/
def demoBlock2 : Block :=
  { index := 2, timestamp := "1700000004541", transactions := .arr [],
    previousHash := "000f1a8ff260da23f33e7ad2ce36d4d851cf1b7291d9b1bd355ac9b0e5c8c4f3",
    nonce := 2,
    hash := "0004ba09bba6e320e927bb2453cfadbc898a9c738c72d955f1207a8d9e46123c" }

/-- A block with index 1 and timestamp `"23"`. -/
def splitBlockA (transactions : JsonValue) (previousHash : String) (nonce : Nat)
    (hash : String) : Block :=
  { index := 1, timestamp := "23", transactions := transactions,
    previousHash := previousHash, nonce := nonce, hash := hash }

/-- The block with index 12 and timestamp `"3"` and the same other fields. -/
def splitBlockB (transactions : JsonValue) (previousHash : String) (nonce : Nat)
    (hash : String) : Block :=
  { index := 12, timestamp := "3", transactions := transactions,
    previousHash := previousHash, nonce := nonce, hash := hash }

/-! ## Arrays held by reference

`new Block(..., this.pendingTransactions, ...)` stores the queue array itself
in the block, and `addTransaction` pushes onto the queue array in place. The
definitions below keep the arrays in a heap and the fields as addresses, to
relate the ledger of values above to the objects of the program. -/

/-- The `transactions` field of a block object: the sentinel string of the
genesis block, or the address of the array given to the constructor. -/
inductive TxField where
  | sentinel (s : String)
  | ref (a : Nat)
deriving DecidableEq

/-- A block object; its `transactions` field is held by reference. -/
structure RefBlock where
  index : Nat
  timestamp : String
  transactions : TxField
  previousHash : String
  nonce : Nat
  hash : String
deriving DecidableEq

/-- A ledger object over a heap of arrays; `pendingTransactions` is the
address of the queue array. -/
structure RefLedger where
  heap : List (List JsonValue)
  chain : List RefBlock
  difficulty : Nat
  pendingTransactions : Nat
deriving DecidableEq

/-- The value a `transactions` field denotes in a heap. -/
def TxField.read (heap : List (List JsonValue)) : TxField → JsonValue
  | .sentinel s => .str s
  | .ref a => .arr (heap.getD a [])

/-- The block of values a block object denotes in a heap. -/
def RefBlock.read (heap : List (List JsonValue)) (b : RefBlock) : Block :=
  { index := b.index, timestamp := b.timestamp, transactions := b.transactions.read heap,
    previousHash := b.previousHash, nonce := b.nonce, hash := b.hash }

/-- The ledger of values a ledger object denotes. -/
def RefLedger.read (R : RefLedger) : Blockchain :=
  { chain := R.chain.map (RefBlock.read R.heap), difficulty := R.difficulty,
    pendingTransactions := R.heap.getD R.pendingTransactions [] }

/-- The block object with the fields of a block of values and the given
`transactions` field. -/
def RefBlock.ofBlock (t : TxField) (b : Block) : RefBlock :=
  { index := b.index, timestamp := b.timestamp, transactions := t,
    previousHash := b.previousHash, nonce := b.nonce, hash := b.hash }

/-- `new Blockchain()` over a heap: the queue is a fresh empty array. -/
def RefLedger.new (H : String → String) (now : Int) : RefLedger :=
  { heap := [[]],
    chain := [RefBlock.ofBlock (.sentinel "Genesis Block") (createGenesisBlock H now)],
    difficulty := 3, pendingTransactions := 0 }

/-- `addTransaction(transaction)` over a heap: `push` on the queue array, in
place. -/
def RefLedger.addTransaction (R : RefLedger) (transaction : JsonValue) : RefLedger :=
  let queue := R.heap.getD R.pendingTransactions []
  { R with heap := R.heap.set R.pendingTransactions (queue ++ [transaction]) }

/-- `minePendingTransactions()` over a heap: the new block holds the queue
array itself, and `this.pendingTransactions = []` makes the queue a fresh
array. -/
def RefLedger.minePendingTransactions (H : String → String) (fuel : Nat) (now : Int)
    (R : RefLedger) : Outcome RefLedger :=
  match R.chain[R.chain.length - 1]? with
  | none => .threw
  | some tip =>
    let block := Block.new H R.chain.length (toString now)
      (.arr (R.heap.getD R.pendingTransactions [])) tip.hash
    match block.mineBlock H fuel R.difficulty with
    | .outOfFuel => .outOfFuel
    | .threw => .threw
    | .returned mined =>
      .returned { heap := R.heap ++ [[]],
                  chain := R.chain ++ [RefBlock.ofBlock (.ref R.pendingTransactions) mined],
                  difficulty := R.difficulty, pendingTransactions := R.heap.length }

/-- Every address held by the ledger object is an address of its heap. -/
def RefLedger.wellFormed (R : RefLedger) : Prop :=
  R.pendingTransactions < R.heap.length ∧
    ∀ b ∈ R.chain, ∀ a, b.transactions = .ref a → a < R.heap.length

/-- No block holds the queue array. -/
def RefLedger.unshared (R : RefLedger) : Prop :=
  ∀ b ∈ R.chain, b.transactions ≠ .ref R.pendingTransactions

/-- The outcome of a call seen through a function on its result. -/
def Outcome.map {α β : Type} (f : α → β) : Outcome α → Outcome β
  | .returned a => .returned (f a)
  | .threw => .threw
  | .outOfFuel => .outOfFuel

/-! ## The `/send-sms` route

The handler awaits the delivery and then, in one synchronous run, enqueues the
payload, commits and answers. Whatever the interleaving of requests, the
ledger is touched only in that run, so a request is modelled as one function
of the ledger state at the moment the delivery settles. What the handler reads
from outside (the result of the delivery, the clock) is an argument. -/

/-- Truthiness of a JSON value in JavaScript. -/
def JsonValue.truthy : JsonValue → Bool
  | .null => false
  | .bool b => b
  | .num n => n != 0
  | .str s => s != ""
  | .arr _ => true
  | .obj _ => true

/-- The properties `to` (written `to_`) and `message` of the request body;
`none` for a property that is not there (`undefined`). -/
structure SmsRequest where
  to_ : Option JsonValue
  message : Option JsonValue
deriving DecidableEq

/-- What the handler reads from outside: the result of
`await client.messages.create(...)` (the `sid` of the message, `none` when the
call rejects), `new Date().toISOString()`, and for the commit `Date.now()` and
the fuel of the mining loop. -/
structure SmsEnv where
  delivery : Option String
  isoTime : String
  now : Int
  fuel : Nat
deriving DecidableEq

/-- A call of the handler into the ledger. -/
inductive CoreCall where
  | addTransaction (transaction : JsonValue)
  | minePendingTransactions
deriving DecidableEq

/-- What a run of the handler leaves: the status and body of the response,
the ledger, and the calls it made into the ledger, in order. -/
structure SmsResult where
  status : Nat
  body : JsonValue
  ledger : Blockchain
  calls : List CoreCall
deriving DecidableEq

/-- The transaction the handler logs: `to`, `message`, `sid`, `timestamp`. -/
def smsTransaction (to_ message : JsonValue) (sid isoTime : String) : JsonValue :=
  .obj [("to", to_), ("message", message), ("sid", .str sid), ("timestamp", .str isoTime)]

/-- The body of an error response. -/
def errorBody (text : String) : JsonValue := .obj [("error", .str text)]

/-- The body of the response to a request that succeeded. -/
def successBody (sid : String) (height : Nat) : JsonValue :=
  .obj [("success", .bool true), ("sid", .str sid), ("blockchainHeight", .num height)]

/-- The handler of `POST /send-sms` on the ledger `L`. A `TypeError` of the
commit is caught by the `catch` of the handler. -/
def sendSms (H : String → String) (env : SmsEnv) (req : SmsRequest) (L : Blockchain) :
    Outcome SmsResult :=
  match req.to_, req.message with
  | some to_, some message =>
    if !to_.truthy || !message.truthy then
      .returned ⟨400, errorBody "Missing 'to' or 'message'", L, []⟩
    else
      match env.delivery with
      | none => .returned ⟨500, errorBody "Failed to send SMS", L, []⟩
      | some sid =>
        let tx := smsTransaction to_ message sid env.isoTime
        let L1 := L.addTransaction tx
        match L1.minePendingTransactions H env.fuel env.now with
        | .returned L2 =>
          .returned ⟨200, successBody sid L2.chain.length, L2,
            [.addTransaction tx, .minePendingTransactions]⟩
        | .threw =>
          .returned ⟨500, errorBody "Failed to send SMS", L1,
            [.addTransaction tx, .minePendingTransactions]⟩
        | .outOfFuel => .outOfFuel
  | _, _ => .returned ⟨400, errorBody "Missing 'to' or 'message'", L, []⟩

/-- The request passes the test on `to` and `message`. -/
def SmsRequest.complete (req : SmsRequest) : Bool :=
  match req.to_, req.message with
  | some to_, some message => to_.truthy && message.truthy
  | _, _ => false

/-- The `sid` of the delivery of a request, when one was made and succeeded. -/
def deliveredSid (env : SmsEnv) (req : SmsRequest) : List String :=
  if req.complete then env.delivery.toList else []

/-- The ledger states the server reaches from `new Blockchain()` by requests
to `/send-sms` that are answered, with the `sid`s of the deliveries that
succeeded so far. -/
inductive ServerReachable (H : String → String) : List String → Blockchain → Prop where
  | start (now : Int) : ServerReachable H [] (Blockchain.new H now)
  | request (sids : List String) (L : Blockchain) (env : SmsEnv) (req : SmsRequest)
      (r : SmsResult) :
      ServerReachable H sids L → sendSms H env req L = .returned r →
      ServerReachable H (deliveredSid env req ++ sids) r.ledger

/-- The properties of a JSON object, none for any other value. -/
def JsonValue.fields : JsonValue → List (String × JsonValue)
  | .obj fs => fs
  | _ => []

/-! ## Test vectors of SHA-256 -/

set_option maxRecDepth 1000000 in
theorem sha256hex_empty :
    sha256hex "" = "e3b0c44298fc1c149afbf4c8996fb92427ae41e4649b934ca495991b7852b855" := by
  decide!

set_option maxRecDepth 1000000 in
theorem sha256hex_abc :
    sha256hex "abc" = "ba7816bf8f01cfea414140de5dae2223b00361a396177a9cb410ff61f20015ad" := by
  decide!

set_option maxRecDepth 1000000 in
theorem sha256hex_two_blocks :
    sha256hex "abcdbcdecdefdefgefghfghighijhijkijkljklmklmnlmnomnopnopq"
      = "248d6a61d20638b8e5c026930c3e6039a33ce45964ff2167f6ecedd419db06c1" := by
  decide!

/-! ## Lemmas on the difficulty test and the mining loop -/

theorem take_eq_replicate_iff (c : Char) :
    ∀ (d : Nat) (l : List Char),
      l.take d = List.replicate d c ↔ d ≤ l.length ∧ ∀ i, i < d → l[i]? = some c
  | 0, l => by simp
  | d + 1, [] => by simp [List.replicate_succ]
  | d + 1, x :: t => by
    rw [List.take_succ_cons, List.replicate_succ, List.cons.injEq, take_eq_replicate_iff c d t]
    constructor
    · rintro ⟨rfl, h1, h2⟩
      refine ⟨by simpa using h1, ?_⟩
      intro i hi
      cases i with
      | zero => simp
      | succ j => simpa using h2 j (by omega)
    · rintro ⟨h1, h2⟩
      refine ⟨by simpa using h2 0 (by omega), by simpa using h1, ?_⟩
      intro i hi
      simpa using h2 (i + 1) (by omega)

theorem meetsDifficulty_iff (h : String) (d : Nat) :
    meetsDifficulty h d = true ↔ d ≤ h.length ∧ ∀ i, i < d → h.data[i]? = some '0' := by
  unfold meetsDifficulty substring0
  rw [beq_iff_eq]
  refine Iff.trans ?_ (take_eq_replicate_iff _ d h.data)
  constructor
  · intro h1
    exact congrArg String.data h1
  · intro h1
    exact congrArg String.mk h1

theorem calculateHash_congr (H : String → String) (b c : Block)
    (h1 : b.index = c.index) (h2 : b.timestamp = c.timestamp)
    (h3 : b.transactions = c.transactions) (h4 : b.previousHash = c.previousHash)
    (h5 : b.nonce = c.nonce) : b.calculateHash H = c.calculateHash H := by
  unfold Block.calculateHash Block.preimage
  rw [h1, h2, h3, h4, h5]

theorem mineStep_hash (H : String → String) (b : Block) :
    (b.mineStep H).hash = (b.mineStep H).calculateHash H := rfl

theorem mineIter_succ (H : String → String) (k : Nat) (b : Block) :
    Block.mineIter H (k + 1) b = (Block.mineIter H k b).mineStep H := by
  induction k generalizing b with
  | zero => rfl
  | succ k ih => exact ih (b.mineStep H)

theorem mineIter_frame (H : String → String) (k : Nat) (b : Block) :
    (Block.mineIter H k b).index = b.index ∧ (Block.mineIter H k b).timestamp = b.timestamp ∧
    (Block.mineIter H k b).transactions = b.transactions ∧
    (Block.mineIter H k b).previousHash = b.previousHash := by
  induction k generalizing b with
  | zero => exact ⟨rfl, rfl, rfl, rfl⟩
  | succ k ih => exact ih (b.mineStep H)

theorem mineIter_hash (H : String → String) (k : Nat) (b : Block)
    (hb : b.hash = b.calculateHash H) :
    (Block.mineIter H k b).hash = (Block.mineIter H k b).calculateHash H := by
  induction k generalizing b with
  | zero => exact hb
  | succ k ih => exact ih (b.mineStep H) (mineStep_hash H b)

theorem loopCondition_of_lt (h : String) (d : Nat) (hd : d + 1 < 4294967296) :
    loopCondition h d = some (!meetsDifficulty h d) := by
  simp [loopCondition, zeros, hd, meetsDifficulty, bne]

theorem loopCondition_of_ge (h : String) (d : Nat) (hd : ¬ d + 1 < 4294967296) :
    loopCondition h d = none := by
  simp [loopCondition, zeros, hd]

/-- From `d + 1 = 2^32` on the loop condition throws at its first evaluation. -/
theorem mineBlock_threw_of_ge (H : String → String) (fuel : Nat) (b : Block) (d : Nat)
    (hd : ¬ d + 1 < 4294967296) : Block.mineBlock H fuel b d = .threw := by
  cases fuel <;> simp [Block.mineBlock, loopCondition_of_ge _ d hd]

theorem mineBlock_zero_eq (H : String → String) (b : Block) (d : Nat)
    (hd : d + 1 < 4294967296) :
    Block.mineBlock H 0 b d = if meetsDifficulty b.hash d then .returned b else .outOfFuel := by
  cases hm : meetsDifficulty b.hash d <;>
    simp [Block.mineBlock, loopCondition_of_lt _ d hd, hm]

theorem mineBlock_succ_eq (H : String → String) (fuel : Nat) (b : Block) (d : Nat)
    (hd : d + 1 < 4294967296) :
    Block.mineBlock H (fuel + 1) b d =
      if meetsDifficulty b.hash d then .returned b
      else Block.mineBlock H fuel (b.mineStep H) d := by
  cases hm : meetsDifficulty b.hash d <;>
    simp [Block.mineBlock, loopCondition_of_lt _ d hd, hm]

/-- Below the bound of array lengths `mineBlock` does not throw. -/
theorem mineBlock_returns_or_outOfFuel (H : String → String) (d : Nat) :
    ∀ (fuel : Nat) (b : Block), d + 1 < 4294967296 → Block.mineBlock H fuel b d = .threw → False
  | 0, b => by
    intro hd h
    rw [mineBlock_zero_eq H b d hd] at h
    split at h <;> cases h
  | fuel + 1, b => by
    intro hd h
    rw [mineBlock_succ_eq H fuel b d hd] at h
    split at h
    · cases h
    · exact mineBlock_returns_or_outOfFuel H d fuel _ hd h

/-- A call of `mineBlock` that does not throw has a difficulty below the
bound of array lengths. -/
theorem mineBlock_bound (H : String → String) (fuel : Nat) (b : Block) (d : Nat)
    (h : Block.mineBlock H fuel b d ≠ .threw) : d + 1 < 4294967296 := by
  rcases Nat.lt_or_ge (d + 1) 4294967296 with hd | hd
  · exact hd
  · exact absurd (mineBlock_threw_of_ge H fuel b d (by omega)) h

/-- What a returning `mineBlock` did: some number `k` of iterations, at most
the fuel, the test failing before each of them and holding after the last. -/
theorem mineBlock_returns (H : String → String) (d : Nat) :
    ∀ (fuel : Nat) (b b' : Block), Block.mineBlock H fuel b d = .returned b' →
      ∃ k, k ≤ fuel ∧ b' = Block.mineIter H k b ∧ meetsDifficulty b'.hash d = true ∧
        ∀ j, j < k → meetsDifficulty (Block.mineIter H j b).hash d = false
  | 0, b, b' => by
    intro h
    have hd := mineBlock_bound H 0 b d (by rw [h]; simp)
    rw [mineBlock_zero_eq H b d hd] at h
    split at h
    · rename_i hm
      cases h
      exact ⟨0, le_refl _, rfl, hm, by intro j hj; omega⟩
    · cases h
  | fuel + 1, b, b' => by
    intro h
    have hd := mineBlock_bound H (fuel + 1) b d (by rw [h]; simp)
    rw [mineBlock_succ_eq H fuel b d hd] at h
    split at h
    · rename_i hm
      cases h
      exact ⟨0, Nat.zero_le _, rfl, hm, by intro j hj; omega⟩
    · rename_i hm
      obtain ⟨k, hk, hb, hmeets, hbefore⟩ := mineBlock_returns H d fuel _ _ h
      refine ⟨k + 1, by omega, hb, hmeets, ?_⟩
      intro j hj
      cases j with
      | zero => simpa using hm
      | succ j => exact hbefore j (by omega)

/-- The converse: if the test first holds after `k` iterations, `mineBlock`
returns that block with any fuel of at least `k`. -/
theorem mineBlock_of_first (H : String → String) (d : Nat) (hd : d + 1 < 4294967296) :
    ∀ (k fuel : Nat) (b : Block), k ≤ fuel →
      meetsDifficulty (Block.mineIter H k b).hash d = true →
      (∀ j, j < k → meetsDifficulty (Block.mineIter H j b).hash d = false) →
      Block.mineBlock H fuel b d = .returned (Block.mineIter H k b)
  | 0, fuel, b => by
    intro _ hm _
    have hm' : meetsDifficulty b.hash d = true := hm
    cases fuel
    · rw [mineBlock_zero_eq H b d hd]
      simp [hm', Block.mineIter]
    · rw [mineBlock_succ_eq H _ b d hd]
      simp [hm', Block.mineIter]
  | k + 1, 0, b => by intro h; omega
  | k + 1, fuel + 1, b => by
    intro hk hm hbefore
    have h0 : meetsDifficulty b.hash d = false := hbefore 0 (by omega)
    have ih := mineBlock_of_first H d hd k fuel (b.mineStep H) (by omega) hm
      (fun j hj => hbefore (j + 1) (by omega))
    rw [mineBlock_succ_eq H fuel b d hd]
    simp [h0, Block.mineIter, ih]

/-! ## Lemmas on validation and commit -/

theorem isChainValidLoop_iff (H : String → String) (chain : List Block) :
    ∀ (fuel i : Nat), 1 ≤ i → chain.length ≤ fuel + i →
      (isChainValidLoop H chain fuel i = true ↔
        ∀ j, i ≤ j → j < chain.length → checksAt H chain j)
  | 0, i => by
    intro _ hlen
    simp only [isChainValidLoop, true_iff]
    intro j hij hj
    omega
  | fuel + 1, i => by
    intro hi hlen
    unfold isChainValidLoop
    by_cases h : i < chain.length
    · have hc : chain[i]? = some chain[i] := List.getElem?_eq_getElem h
      have hp : chain[i - 1]? = some (chain[i - 1]) := List.getElem?_eq_getElem (by omega)
      have ih := isChainValidLoop_iff H chain fuel (i + 1) (by omega) (by omega)
      simp only [h, if_true, hc, hp]
      by_cases h1 : chain[i].hash = chain[i].calculateHash H
      · by_cases h2 : chain[i].previousHash = chain[i - 1].hash
        · simp only [ne_eq, h1, h2, not_true_eq_false, if_false]
          rw [ih]
          constructor
          · intro hall j hij hj
            rcases Nat.eq_or_lt_of_le hij with heq | hlt
            · subst heq
              intro cur prev hcur hprev
              rw [hc] at hcur
              rw [hp] at hprev
              cases hcur
              cases hprev
              exact ⟨h1, h2⟩
            · exact hall j hlt hj
          · intro hall j hij hj
            exact hall j (by omega) hj
        · simp only [ne_eq, h1, h2, not_true_eq_false, not_false_eq_true, if_false, if_true]
          constructor
          · intro hf
            cases hf
          · intro hall
            exact absurd (hall i (le_refl _) h _ _ hc hp).2 h2
      · simp only [ne_eq, h1, not_false_eq_true, if_true]
        constructor
        · intro hf
          cases hf
        · intro hall
          exact absurd (hall i (le_refl _) h _ _ hc hp).1 h1
    · simp only [h, if_false, true_iff]
      intro j hij hj
      omega

theorem isChainValid_iff_checks (H : String → String) (L : Blockchain) :
    L.isChainValid H = true ↔ ∀ i, 1 ≤ i → i < L.chain.length → checksAt H L.chain i :=
  isChainValidLoop_iff H L.chain L.chain.length 1 (le_refl _) (by omega)

/-- A failed check at a position from 1 on makes `isChainValid` false. -/
theorem isChainValid_false_of (H : String → String) (L : Blockchain) (i : Nat)
    (current previous : Block) (hi : 1 ≤ i) (hc : L.chain[i]? = some current)
    (hp : L.chain[i - 1]? = some previous)
    (hbad : current.hash ≠ current.calculateHash H ∨ current.previousHash ≠ previous.hash) :
    L.isChainValid H = false := by
  cases hv : L.isChainValid H with
  | false => rfl
  | true =>
    have hlt : i < L.chain.length := by
      rcases Nat.lt_or_ge i L.chain.length with h | h
      · exact h
      · rw [List.getElem?_eq_none h] at hc
        cases hc
    have := (isChainValid_iff_checks H L).1 hv i hi hlt current previous hc hp
    rcases hbad with h | h
    · exact absurd this.1 h
    · exact absurd this.2 h

/-- What a returning commit did. -/
theorem minePending_returns (H : String → String) (fuel : Nat) (now : Int)
    (L L' : Blockchain) (h : L.minePendingTransactions H fuel now = .returned L') :
    ∃ tip k, L.chain[L.chain.length - 1]? = some tip ∧ k ≤ fuel ∧
      L' = { chain := L.chain ++ [Block.mineIter H k
                (Block.new H L.chain.length (toString now) (.arr L.pendingTransactions) tip.hash)],
             difficulty := L.difficulty, pendingTransactions := [] } ∧
      meetsDifficulty (Block.mineIter H k
          (Block.new H L.chain.length (toString now) (.arr L.pendingTransactions) tip.hash)).hash
        L.difficulty = true := by
  unfold Blockchain.minePendingTransactions Blockchain.getLatestBlock at h
  split at h
  · cases h
  · rename_i tip htip
    simp only at h
    split at h
    · cases h
    · cases h
    · rename_i mined hmined
      obtain ⟨k, hk, hb, hmeets, _⟩ := mineBlock_returns H _ _ _ _ hmined
      cases h
      subst hb
      exact ⟨tip, k, htip, hk, rfl, hmeets⟩

theorem checksAt_append (H : String → String) (chain : List Block) (b tip : Block)
    (htip : chain[chain.length - 1]? = some tip) (hb : b.hash = b.calculateHash H)
    (hlink : b.previousHash = tip.hash)
    (hall : ∀ i, 1 ≤ i → i < chain.length → checksAt H chain i) :
    ∀ i, 1 ≤ i → i < (chain ++ [b]).length → checksAt H (chain ++ [b]) i := by
  intro i hi hlt cur prev hcur hprev
  have hne : chain.length ≠ 0 := by
    intro h0
    rw [List.getElem?_eq_none (by omega)] at htip
    cases htip
  rw [List.length_append, List.length_singleton] at hlt
  rcases Nat.lt_or_ge i chain.length with h | h
  · rw [List.getElem?_append_left h] at hcur
    rw [List.getElem?_append_left (by omega)] at hprev
    exact hall i hi h cur prev hcur hprev
  · have hieq : i = chain.length := by omega
    subst hieq
    rw [List.getElem?_append_right (le_refl _)] at hcur
    rw [List.getElem?_append_left (by omega)] at hprev
    simp only [Nat.sub_self, List.getElem?_cons_zero, Option.some.injEq] at hcur
    subst hcur
    rw [htip] at hprev
    cases hprev
    exact ⟨hb, hlink⟩

/-! ## Decimal rendering of numbers -/

theorem char_eq_of_toNat_eq {c d : Char} (h : c.toNat = d.toNat) : c = d := by
  apply Char.ext
  apply UInt32.ext
  exact h

theorem toDigitsCore_acc :
    ∀ (fuel n : Nat) (ds : List Char),
      Nat.toDigitsCore 10 fuel n ds = Nat.toDigitsCore 10 fuel n [] ++ ds
  | 0, n, ds => by simp [Nat.toDigitsCore]
  | fuel + 1, n, ds => by
    simp only [Nat.toDigitsCore]
    split
    · simp
    · rw [toDigitsCore_acc fuel (n / 10) (_ :: ds), toDigitsCore_acc fuel (n / 10) [_]]
      simp

theorem toDigitsCore_fuel :
    ∀ (f1 f2 n : Nat), n < f1 → n < f2 →
      Nat.toDigitsCore 10 f1 n [] = Nat.toDigitsCore 10 f2 n []
  | 0, _, n => by intro h; omega
  | _ + 1, 0, n => by intro _ h; omega
  | f1 + 1, f2 + 1, n => by
    intro h1 h2
    simp only [Nat.toDigitsCore]
    split
    · rfl
    · rename_i hn
      rw [toDigitsCore_acc f1, toDigitsCore_acc f2,
        toDigitsCore_fuel f1 f2 (n / 10) (by omega) (by omega)]

theorem toDigitsCore_succ (fuel n : Nat) (ds : List Char) :
    Nat.toDigitsCore 10 (fuel + 1) n ds =
      if n / 10 = 0 then Nat.digitChar (n % 10) :: ds
      else Nat.toDigitsCore 10 fuel (n / 10) (Nat.digitChar (n % 10) :: ds) := rfl

/-- The recursion equation of the decimal rendering. -/
theorem toDigits_eq (n : Nat) :
    Nat.toDigits 10 n =
      if n < 10 then [Nat.digitChar n]
      else Nat.toDigits 10 (n / 10) ++ [Nat.digitChar (n % 10)] := by
  rw [Nat.toDigits, toDigitsCore_succ]
  by_cases h : n < 10
  · have h0 : n / 10 = 0 := by omega
    have h1 : n % 10 = n := by omega
    simp [h, h0, h1]
  · have h0 : ¬ n / 10 = 0 := by omega
    simp only [h, h0, if_false]
    rw [toDigitsCore_acc, toDigitsCore_fuel n (n / 10 + 1) (n / 10) (by omega) (by omega)]
    rfl

theorem digitChar_toNat : ∀ m, m < 10 → (Nat.digitChar m).toNat = 48 + m := by decide

theorem toDigits_ne_nil (n : Nat) : Nat.toDigits 10 n ≠ [] := by
  rw [toDigits_eq]
  split <;> simp

theorem toDigits_isDecDigit (n : Nat) : ∀ c ∈ Nat.toDigits 10 n, isDecDigit c := by
  induction n using Nat.strong_induction_on with
  | _ n ih =>
    rw [toDigits_eq]
    split
    · rename_i h
      intro c hc
      simp only [List.mem_singleton] at hc
      subst hc
      unfold isDecDigit
      rw [digitChar_toNat n h]
      omega
    · intro c hc
      rcases List.mem_append.1 hc with hc | hc
      · exact ih (n / 10) (by omega) c hc
      · simp only [List.mem_singleton] at hc
        subst hc
        unfold isDecDigit
        rw [digitChar_toNat (n % 10) (by omega)]
        omega

theorem toDigits_injective : ∀ n m : Nat, Nat.toDigits 10 n = Nat.toDigits 10 m → n = m := by
  intro n
  induction n using Nat.strong_induction_on with
  | _ n ih =>
    intro m h
    rw [toDigits_eq n, toDigits_eq m] at h
    by_cases hn : n < 10 <;> by_cases hm : m < 10
    · simp only [hn, hm, if_true, List.cons.injEq, and_true] at h
      have := congrArg Char.toNat h
      rw [digitChar_toNat n hn, digitChar_toNat m hm] at this
      omega
    · simp only [hn, hm, if_true, if_false] at h
      have hl := congrArg List.length h
      have : (Nat.toDigits 10 (m / 10)).length ≠ 0 := by
        intro h0
        exact toDigits_ne_nil _ (List.length_eq_zero.1 h0)
      simp only [List.length_append, List.length_singleton, List.length_cons,
        List.length_nil] at hl
      omega
    · simp only [hn, hm, if_true, if_false] at h
      have hl := congrArg List.length h
      have : (Nat.toDigits 10 (n / 10)).length ≠ 0 := by
        intro h0
        exact toDigits_ne_nil _ (List.length_eq_zero.1 h0)
      simp only [List.length_append, List.length_singleton, List.length_cons,
        List.length_nil] at hl
      omega
    · simp only [hn, hm, if_false] at h
      obtain ⟨h1, h2⟩ := List.append_inj' h rfl
      have hq := ih (n / 10) (by omega) (m / 10) h1
      simp only [List.cons.injEq, and_true] at h2
      have := congrArg Char.toNat h2
      rw [digitChar_toNat _ (by omega), digitChar_toNat _ (by omega)] at this
      omega

theorem nat_toString_data (n : Nat) : (toString n).data = Nat.toDigits 10 n := rfl

theorem nat_toString_injective (n m : Nat) (h : toString n = toString m) : n = m :=
  toDigits_injective n m (by rw [← nat_toString_data, ← nat_toString_data, h])

/-- Unique splitting of a run of characters of one class followed by a
character outside the class (or by nothing). -/
theorem run_append_inj (P : Char → Prop) :
    ∀ (a a' r r' : List Char), (∀ c ∈ a, P c) → (∀ c ∈ a', P c) →
      (∀ c, r.head? = some c → ¬ P c) → (∀ c, r'.head? = some c → ¬ P c) →
      a ++ r = a' ++ r' → a = a' ∧ r = r'
  | [], [], _, _ => by
    intro _ _ _ _ h
    exact ⟨rfl, h⟩
  | [], c' :: t', r, r' => by
    intro _ ha' hr _ h
    simp only [List.nil_append] at h
    subst h
    exact absurd (ha' c' (List.mem_cons_self _ _)) (hr c' rfl)
  | c :: t, [], r, r' => by
    intro ha _ _ hr' h
    simp only [List.nil_append] at h
    subst h
    exact absurd (ha c (List.mem_cons_self _ _)) (hr' c rfl)
  | c :: t, c' :: t', r, r' => by
    intro ha ha' hr hr' h
    simp only [List.cons_append, List.cons.injEq] at h
    obtain ⟨h1, h2⟩ := run_append_inj P t t' r r'
      (fun x hx => ha x (List.mem_cons_of_mem _ hx))
      (fun x hx => ha' x (List.mem_cons_of_mem _ hx)) hr hr' h.2
    exact ⟨by rw [h.1, h1], h2⟩

/-! ## Unique readability of `JSON.stringify` -/

theorem hexVal_hexDigit :
    ∀ n, n < 32 → 16 * hexVal (hexDigit (n / 16)) + hexVal (hexDigit (n % 16)) = n := by
  decide

theorem char_ofNat_toNat (c : Char) : Char.ofNat c.toNat = c := by
  apply char_eq_of_toNat_eq
  have hv : c.toNat.isValidChar := c.valid
  unfold Char.ofNat
  rw [dif_pos hv]
  rfl

theorem unescapeHead_escapeChar (c : Char) (x : List Char) :
    unescapeHead (escapeChar c ++ x) = some (c, x) := by
  unfold escapeChar
  split_ifs with h1 h2 h3 h4 h5 h6 h7 h8
  · subst h1
    simp [unescapeHead, dquote, bslash]
  · subst h2
    simp [unescapeHead, dquote, bslash]
  · have hc : c = Char.ofNat 8 := char_eq_of_toNat_eq h3
    subst hc
    simp [unescapeHead, dquote, bslash]
  · have hc : c = Char.ofNat 12 := char_eq_of_toNat_eq h4
    subst hc
    simp [unescapeHead, dquote, bslash]
  · have hc : c = Char.ofNat 10 := char_eq_of_toNat_eq h5
    subst hc
    simp [unescapeHead, dquote, bslash]
  · have hc : c = Char.ofNat 13 := char_eq_of_toNat_eq h6
    subst hc
    simp [unescapeHead, dquote, bslash]
  · have hc : c = Char.ofNat 9 := char_eq_of_toNat_eq h7
    subst hc
    simp [unescapeHead, dquote, bslash]
  · simp [unescapeHead, dquote, bslash, hexVal_hexDigit c.toNat h8, char_ofNat_toNat]
  · simp [unescapeHead, h2]

theorem escapeChar_ne_dquote (c : Char) (x y : List Char) :
    escapeChar c ++ x ≠ dquote :: y := by
  intro h
  have h1 := congrArg unescapeHead h
  rw [unescapeHead_escapeChar] at h1
  have h2 : unescapeHead (dquote :: y) = some (dquote, y) := by
    simp [unescapeHead, dquote, bslash]
  rw [h2] at h1
  simp only [Option.some.injEq, Prod.mk.injEq] at h1
  rw [h1.1] at h
  simp [escapeChar, dquote, bslash] at h

theorem escaped_inj :
    ∀ (s s' r r' : List Char),
      s.flatMap escapeChar ++ dquote :: r = s'.flatMap escapeChar ++ dquote :: r' →
      s = s' ∧ r = r'
  | [], [], r, r' => by
    intro h
    simpa using h
  | [], c' :: t', r, r' => by
    intro h
    simp only [List.flatMap_nil, List.nil_append, List.flatMap_cons, List.append_assoc] at h
    exact absurd h.symm (escapeChar_ne_dquote _ _ _)
  | c :: t, [], r, r' => by
    intro h
    simp only [List.flatMap_nil, List.nil_append, List.flatMap_cons, List.append_assoc] at h
    exact absurd h (escapeChar_ne_dquote _ _ _)
  | c :: t, c' :: t', r, r' => by
    intro h
    simp only [List.flatMap_cons, List.append_assoc] at h
    have h1 := congrArg unescapeHead h
    rw [unescapeHead_escapeChar, unescapeHead_escapeChar] at h1
    simp only [Option.some.injEq, Prod.mk.injEq] at h1
    obtain ⟨h2, h3⟩ := escaped_inj t t' r r' h1.2
    exact ⟨by rw [h1.1, h2], h3⟩

theorem quoteJson_inj (s s' : String) (r r' : List Char)
    (h : quoteJson s ++ r = quoteJson s' ++ r') : s = s' ∧ r = r' := by
  unfold quoteJson at h
  simp only [List.cons_append, List.append_assoc, List.singleton_append, List.cons.injEq,
    true_and] at h
  obtain ⟨h1, h2⟩ := escaped_inj _ _ _ _ h
  exact ⟨String.ext h1, h2⟩

theorem int_toString_inj (n n' : Int) (r r' : List Char)
    (hr : ∀ c, r.head? = some c → ¬ isDecDigit c)
    (hr' : ∀ c, r'.head? = some c → ¬ isDecDigit c)
    (h : (toString n).data ++ r = (toString n').data ++ r') : n = n' ∧ r = r' := by
  have hminus : ¬ isDecDigit '-' := by unfold isDecDigit; decide
  have hhead : ∀ m : Nat, ∃ c t, Nat.toDigits 10 m = c :: t ∧ isDecDigit c := by
    intro m
    cases hd : Nat.toDigits 10 m with
    | nil => exact absurd hd (toDigits_ne_nil m)
    | cons c t =>
      exact ⟨c, t, rfl, toDigits_isDecDigit m c (by rw [hd]; exact List.mem_cons_self _ _)⟩
  cases n with
  | ofNat m =>
    cases n' with
    | ofNat m' =>
      have h' : Nat.toDigits 10 m ++ r = Nat.toDigits 10 m' ++ r' := h
      obtain ⟨h1, h2⟩ := run_append_inj isDecDigit _ _ _ _ (toDigits_isDecDigit m)
        (toDigits_isDecDigit m') hr hr' h'
      exact ⟨by rw [toDigits_injective m m' h1], h2⟩
    | negSucc m' =>
      have h' : Nat.toDigits 10 m ++ r = '-' :: (Nat.toDigits 10 (m' + 1) ++ r') := h
      obtain ⟨c, t, hc, hdig⟩ := hhead m
      rw [hc] at h'
      simp only [List.cons_append, List.cons.injEq] at h'
      rw [h'.1] at hdig
      exact absurd hdig hminus
  | negSucc m =>
    cases n' with
    | ofNat m' =>
      have h' : '-' :: (Nat.toDigits 10 (m + 1) ++ r) = Nat.toDigits 10 m' ++ r' := h
      obtain ⟨c, t, hc, hdig⟩ := hhead m'
      rw [hc] at h'
      simp only [List.cons_append, List.cons.injEq] at h'
      rw [← h'.1] at hdig
      exact absurd hdig hminus
    | negSucc m' =>
      have h' : '-' :: (Nat.toDigits 10 (m + 1) ++ r) = '-' :: (Nat.toDigits 10 (m' + 1) ++ r') := h
      simp only [List.cons.injEq, true_and] at h'
      obtain ⟨h1, h2⟩ := run_append_inj isDecDigit _ _ _ _ (toDigits_isDecDigit _)
        (toDigits_isDecDigit _) hr hr' h'
      have := toDigits_injective _ _ h1
      exact ⟨by rw [Nat.add_right_cancel this], h2⟩

/-- The first character of `JSON.stringify(v)` tells the kind of `v`. -/
theorem stringifyChars_head (v : JsonValue) :
    ∃ c t, stringifyChars v = c :: t ∧ charKind c = v.kind := by
  cases v with
  | null => exact ⟨'n', ['u', 'l', 'l'], rfl, by show charKind 'n' = 0; decide⟩
  | bool b =>
    cases b
    · exact ⟨'f', ['a', 'l', 's', 'e'], rfl, by show charKind 'f' = 1; decide⟩
    · exact ⟨'t', ['r', 'u', 'e'], rfl, by show charKind 't' = 1; decide⟩
  | num n =>
    cases n with
    | ofNat m =>
      cases hd : Nat.toDigits 10 m with
      | nil => exact absurd hd (toDigits_ne_nil m)
      | cons c t =>
        have hdig : isDecDigit c :=
          toDigits_isDecDigit m c (by rw [hd]; exact List.mem_cons_self _ _)
        refine ⟨c, t, ?_, ?_⟩
        · show Nat.toDigits 10 m = c :: t
          exact hd
        · unfold isDecDigit at hdig
          show charKind c = 2
          unfold charKind
          split_ifs <;> omega
    | negSucc m =>
      exact ⟨'-', Nat.toDigits 10 (m + 1), rfl, by show charKind '-' = 2; decide⟩
  | str s => exact ⟨dquote, _, rfl, by show charKind dquote = 3; decide⟩
  | arr xs => exact ⟨'[', _, rfl, by show charKind '[' = 4; decide⟩
  | obj fs => exact ⟨'\x7b', _, rfl, by show charKind '\x7b' = 5; decide⟩

theorem kind_eq_of_append_eq (v v' : JsonValue) (r r' : List Char)
    (h : stringifyChars v ++ r = stringifyChars v' ++ r') : v.kind = v'.kind := by
  obtain ⟨c, t, hc, hk⟩ := stringifyChars_head v
  obtain ⟨c', t', hc', hk'⟩ := stringifyChars_head v'
  rw [hc, hc'] at h
  simp only [List.cons_append, List.cons.injEq] at h
  rw [← hk, ← hk', h.1]

theorem stringifyChars_ne_cons (v : JsonValue) (c : Char) (x y : List Char)
    (hc : charKind c = 6) : stringifyChars v ++ x ≠ c :: y := by
  intro h
  obtain ⟨c', t', hc', hk'⟩ := stringifyChars_head v
  rw [hc'] at h
  simp only [List.cons_append, List.cons.injEq] at h
  rw [h.1, hc] at hk'
  cases v <;> simp [JsonValue.kind] at hk'

theorem notDigit_cons (c0 : Char) (h0 : ¬ isDecDigit c0) (tl : List Char) :
    ∀ c, (c0 :: tl).head? = some c → ¬ isDecDigit c := by
  intro c hc
  simp only [List.head?_cons, Option.some.injEq] at hc
  rw [← hc]
  exact h0

theorem notDigit_comma : ¬ isDecDigit ',' := by unfold isDecDigit; decide

theorem notDigit_bracket : ¬ isDecDigit ']' := by unfold isDecDigit; decide

theorem notDigit_brace : ¬ isDecDigit '\x7d' := by unfold isDecDigit; decide

mutual
/-- The text of a JSON value followed by a non-digit determines the value and
what follows it. -/
theorem stringifyChars_inj :
    ∀ (v v' : JsonValue) (r r' : List Char),
      (∀ c, r.head? = some c → ¬ isDecDigit c) → (∀ c, r'.head? = some c → ¬ isDecDigit c) →
      stringifyChars v ++ r = stringifyChars v' ++ r' → v = v' ∧ r = r'
  | .null, v', r, r' => by
    intro _ _ h
    have hk := kind_eq_of_append_eq _ _ _ _ h
    cases v' <;> simp only [JsonValue.kind] at hk <;> try omega
    simpa [stringifyChars] using h
  | .bool b, v', r, r' => by
    intro _ _ h
    have hk := kind_eq_of_append_eq _ _ _ _ h
    cases v' <;> simp only [JsonValue.kind] at hk <;> try omega
    rename_i b'
    cases b <;> cases b' <;> simp [stringifyChars] at h <;> simp [h]
  | .num n, v', r, r' => by
    intro hr hr' h
    have hk := kind_eq_of_append_eq _ _ _ _ h
    cases v' <;> simp only [JsonValue.kind] at hk <;> try omega
    rename_i n'
    obtain ⟨h1, h2⟩ := int_toString_inj n n' r r' hr hr' h
    exact ⟨by rw [h1], h2⟩
  | .str s, v', r, r' => by
    intro _ _ h
    have hk := kind_eq_of_append_eq _ _ _ _ h
    cases v' <;> simp only [JsonValue.kind] at hk <;> try omega
    rename_i s'
    obtain ⟨h1, h2⟩ := quoteJson_inj s s' r r' h
    exact ⟨by rw [h1], h2⟩
  | .arr xs, v', r, r' => by
    intro _ _ h
    have hk := kind_eq_of_append_eq _ _ _ _ h
    cases v' <;> simp only [JsonValue.kind] at hk <;> try omega
    rename_i xs'
    simp only [stringifyChars, List.cons_append, List.cons.injEq, true_and] at h
    obtain ⟨h1, h2⟩ := stringifyItems_inj xs xs' r r' h
    exact ⟨by rw [h1], h2⟩
  | .obj fs, v', r, r' => by
    intro _ _ h
    have hk := kind_eq_of_append_eq _ _ _ _ h
    cases v' <;> simp only [JsonValue.kind] at hk <;> try omega
    rename_i fs'
    simp only [stringifyChars, List.cons_append, List.cons.injEq, true_and] at h
    obtain ⟨h1, h2⟩ := stringifyFields_inj fs fs' r r' h
    exact ⟨by rw [h1], h2⟩
/-- The text of the elements of an array up to the closing bracket determines
the elements and what follows. -/
theorem stringifyItems_inj :
    ∀ (xs xs' : List JsonValue) (r r' : List Char),
      stringifyItems xs ++ r = stringifyItems xs' ++ r' → xs = xs' ∧ r = r'
  | [], xs', r, r' => by
    intro h
    match xs' with
    | [] => simpa [stringifyItems] using h
    | [x'] =>
      simp only [stringifyItems, List.append_assoc, List.cons_append, List.nil_append] at h
      exact absurd h.symm (stringifyChars_ne_cons x' ']' _ _ (by decide))
    | x' :: y' :: t' =>
      simp only [stringifyItems, List.append_assoc, List.cons_append, List.nil_append] at h
      exact absurd h.symm (stringifyChars_ne_cons x' ']' _ _ (by decide))
  | [x], xs', r, r' => by
    intro h
    match xs' with
    | [] =>
      simp only [stringifyItems, List.append_assoc, List.cons_append, List.nil_append] at h
      exact absurd h (stringifyChars_ne_cons x ']' _ _ (by decide))
    | [x'] =>
      simp only [stringifyItems, List.append_assoc, List.cons_append, List.nil_append] at h
      obtain ⟨h1, h2⟩ := stringifyChars_inj x x' _ _ (notDigit_cons _ notDigit_bracket _)
        (notDigit_cons _ notDigit_bracket _) h
      simp only [List.cons.injEq, true_and] at h2
      exact ⟨by rw [h1], h2⟩
    | x' :: y' :: t' =>
      simp only [stringifyItems, List.append_assoc, List.cons_append, List.nil_append] at h
      obtain ⟨_, h2⟩ := stringifyChars_inj x x' _ _ (notDigit_cons _ notDigit_bracket _)
        (notDigit_cons _ notDigit_comma _) h
      simp at h2
  | x :: y :: t, xs', r, r' => by
    intro h
    match xs' with
    | [] =>
      simp only [stringifyItems, List.append_assoc, List.cons_append, List.nil_append] at h
      exact absurd h (stringifyChars_ne_cons x ']' _ _ (by decide))
    | [x'] =>
      simp only [stringifyItems, List.append_assoc, List.cons_append, List.nil_append] at h
      obtain ⟨_, h2⟩ := stringifyChars_inj x x' _ _ (notDigit_cons _ notDigit_comma _)
        (notDigit_cons _ notDigit_bracket _) h
      simp at h2
    | x' :: y' :: t' =>
      simp only [stringifyItems, List.append_assoc, List.cons_append, List.nil_append] at h
      obtain ⟨h1, h2⟩ := stringifyChars_inj x x' _ _ (notDigit_cons _ notDigit_comma _)
        (notDigit_cons _ notDigit_comma _) h
      simp only [List.cons.injEq, true_and] at h2
      obtain ⟨h3, h4⟩ := stringifyItems_inj (y :: t) (y' :: t') r r' h2
      exact ⟨by rw [h1, h3], h4⟩
/-- The text of the properties of an object up to the closing brace
determines the properties and what follows. -/
theorem stringifyFields_inj :
    ∀ (fs fs' : List (String × JsonValue)) (r r' : List Char),
      stringifyFields fs ++ r = stringifyFields fs' ++ r' → fs = fs' ∧ r = r'
  | [], fs', r, r' => by
    intro h
    match fs' with
    | [] => simpa [stringifyFields] using h
    | [(k', x')] =>
      simp [stringifyFields, quoteJson, dquote] at h
    | (k', x') :: f' :: t' =>
      simp [stringifyFields, quoteJson, dquote] at h
  | [(k, x)], fs', r, r' => by
    intro h
    match fs' with
    | [] =>
      simp [stringifyFields, quoteJson, dquote] at h
    | [(k', x')] =>
      simp only [stringifyFields, List.append_assoc, List.cons_append, List.nil_append] at h
      obtain ⟨h0, h⟩ := quoteJson_inj k k' _ _ h
      simp only [List.cons.injEq, true_and] at h
      obtain ⟨h1, h2⟩ := stringifyChars_inj x x' _ _ (notDigit_cons _ notDigit_brace _)
        (notDigit_cons _ notDigit_brace _) h
      simp only [List.cons.injEq, true_and] at h2
      exact ⟨by rw [h0, h1], h2⟩
    | (k', x') :: f' :: t' =>
      simp only [stringifyFields, List.append_assoc, List.cons_append, List.nil_append] at h
      obtain ⟨_, h⟩ := quoteJson_inj k k' _ _ h
      simp only [List.cons.injEq, true_and] at h
      obtain ⟨_, h2⟩ := stringifyChars_inj x x' _ _ (notDigit_cons _ notDigit_brace _)
        (notDigit_cons _ notDigit_comma _) h
      simp at h2
  | (k, x) :: f :: t, fs', r, r' => by
    intro h
    match fs' with
    | [] =>
      simp [stringifyFields, quoteJson, dquote] at h
    | [(k', x')] =>
      simp only [stringifyFields, List.append_assoc, List.cons_append, List.nil_append] at h
      obtain ⟨_, h⟩ := quoteJson_inj k k' _ _ h
      simp only [List.cons.injEq, true_and] at h
      obtain ⟨_, h2⟩ := stringifyChars_inj x x' _ _ (notDigit_cons _ notDigit_comma _)
        (notDigit_cons _ notDigit_brace _) h
      simp at h2
    | (k', x') :: f' :: t' =>
      simp only [stringifyFields, List.append_assoc, List.cons_append, List.nil_append] at h
      obtain ⟨h0, h⟩ := quoteJson_inj k k' _ _ h
      simp only [List.cons.injEq, true_and] at h
      obtain ⟨h1, h2⟩ := stringifyChars_inj x x' _ _ (notDigit_cons _ notDigit_comma _)
        (notDigit_cons _ notDigit_comma _) h
      simp only [List.cons.injEq, true_and] at h2
      obtain ⟨h3, h4⟩ := stringifyFields_inj (f :: t) (f' :: t') r r' h2
      exact ⟨by rw [h0, h1, h3], h4⟩
end

/-- `JSON.stringify` tells JSON values apart. -/
theorem stringify_injective (v v' : JsonValue) (h : stringify v = stringify v') : v = v' := by
  have h1 : stringifyChars v ++ [] = stringifyChars v' ++ [] := by
    rw [List.append_nil, List.append_nil]
    exact congrArg String.data h
  exact (stringifyChars_inj v v' [] [] (by simp) (by simp) h1).1

/-! ## Single-field changes of the digest preimage -/

theorem preimage_data (b : Block) :
    b.preimage.data = (toString b.index).data ++ (b.timestamp.data ++
      (stringifyChars b.transactions ++ (b.previousHash.data ++ (toString b.nonce).data))) := by
  simp [Block.preimage, stringify]

/-- Two blocks with the same preimage that agree on four of the five fields
of the preimage agree on the fifth. -/
theorem preimage_one_field (b c : Block) (h : b.preimage = c.preimage) :
    (b.timestamp = c.timestamp → b.transactions = c.transactions →
      b.previousHash = c.previousHash → b.nonce = c.nonce → b.index = c.index) ∧
    (b.index = c.index → b.transactions = c.transactions →
      b.previousHash = c.previousHash → b.nonce = c.nonce → b.timestamp = c.timestamp) ∧
    (b.index = c.index → b.timestamp = c.timestamp →
      b.previousHash = c.previousHash → b.nonce = c.nonce → b.transactions = c.transactions) ∧
    (b.index = c.index → b.timestamp = c.timestamp →
      b.transactions = c.transactions → b.nonce = c.nonce → b.previousHash = c.previousHash) ∧
    (b.index = c.index → b.timestamp = c.timestamp →
      b.transactions = c.transactions → b.previousHash = c.previousHash → b.nonce = c.nonce) := by
  have hd : b.preimage.data = c.preimage.data := by rw [h]
  rw [preimage_data, preimage_data] at hd
  refine ⟨?_, ?_, ?_, ?_, ?_⟩
  · intro h2 h3 h4 h5
    rw [h2, h3, h4, h5] at hd
    exact nat_toString_injective _ _ (String.ext (List.append_cancel_right hd))
  · intro h1 h3 h4 h5
    rw [h1, h3, h4, h5] at hd
    exact String.ext (List.append_cancel_right (List.append_cancel_left hd))
  · intro h1 h2 h4 h5
    rw [h1, h2, h4, h5] at hd
    exact stringify_injective _ _
      (String.ext (List.append_cancel_right (List.append_cancel_left (List.append_cancel_left hd))))
  · intro h1 h2 h3 h5
    rw [h1, h2, h3, h5] at hd
    exact String.ext (List.append_cancel_right
      (List.append_cancel_left (List.append_cancel_left (List.append_cancel_left hd))))
  · intro h1 h2 h3 h4
    rw [h1, h2, h3, h4] at hd
    exact nat_toString_injective _ _ (String.ext (List.append_cancel_left
      (List.append_cancel_left (List.append_cancel_left (List.append_cancel_left hd)))))

/-- A block whose hash was current no longer has a current hash after one
field is replaced by a different value of its type, when the hasher does not
give the two preimages the same digest. -/
theorem oneFieldReplaced_hash_stale (H : String → String) (b c : Block)
    (hb : b.hash = b.calculateHash H) (hrep : b.oneFieldReplaced c)
    (hfree : H b.preimage = H c.preimage → b.preimage = c.preimage) :
    c.hash ≠ c.calculateHash H := by
  intro hc
  rcases hrep with ⟨v, hv, rfl⟩ | ⟨v, hv, rfl⟩ | ⟨v, hv, rfl⟩ | ⟨v, hv, rfl⟩ | ⟨v, hv, rfl⟩ |
    ⟨v, hv, rfl⟩
  · have hp := hfree (hb.symm.trans hc)
    exact hv ((preimage_one_field _ _ hp).1 rfl rfl rfl rfl).symm
  · have hp := hfree (hb.symm.trans hc)
    exact hv ((preimage_one_field _ _ hp).2.1 rfl rfl rfl rfl).symm
  · have hp := hfree (hb.symm.trans hc)
    exact hv ((preimage_one_field _ _ hp).2.2.1 rfl rfl rfl rfl).symm
  · have hp := hfree (hb.symm.trans hc)
    exact hv ((preimage_one_field _ _ hp).2.2.2.1 rfl rfl rfl rfl).symm
  · have hp := hfree (hb.symm.trans hc)
    exact hv ((preimage_one_field _ _ hp).2.2.2.2 rfl rfl rfl rfl).symm
  · exact hv (hc.trans hb.symm)

theorem toLoose_calculateHash (H : String → String) (b : Block) :
    b.toLoose.calculateHash H = b.calculateHash H := rfl

/-- On blocks whose fields have the types the program gives them, the loop on
loose blocks is the loop of `isChainValid`. -/
theorem looseIsChainValidLoop_toLoose (H : String → String) (chain : List Block) :
    ∀ (fuel i : Nat),
      looseIsChainValidLoop H (chain.map Block.toLoose) fuel i = isChainValidLoop H chain fuel i
  | 0, _ => rfl
  | fuel + 1, i => by
    unfold looseIsChainValidLoop isChainValidLoop
    rw [List.length_map, List.getElem?_map, List.getElem?_map,
      looseIsChainValidLoop_toLoose H chain fuel (i + 1)]
    cases chain[i]? with
    | none => rfl
    | some current =>
      cases chain[i - 1]? with
      | none => rfl
      | some previous =>
        simp only [Option.map_some', toLoose_calculateHash]
        simp [Block.toLoose]

theorem looseIsChainValid_toLoose (H : String → String) (L : Blockchain) :
    looseIsChainValid H (L.chain.map Block.toLoose) = L.isChainValid H := by
  unfold looseIsChainValid Blockchain.isChainValid
  rw [List.length_map]
  exact looseIsChainValidLoop_toLoose H L.chain L.chain.length 1

/-- Every reachable ledger passes the two checks at every position from 1 on. -/
theorem reachable_checks (H : String → String) (L : Blockchain) (h : Reachable H L) :
    ∀ i, 1 ≤ i → i < L.chain.length → checksAt H L.chain i := by
  induction h with
  | init now =>
    intro i hi hlt
    simp [Blockchain.new] at hlt
    omega
  | add L tx _ ih => exact ih
  | mine L L' fuel now _ hmine ih =>
    obtain ⟨tip, k, htip, _, hL', _⟩ := minePending_returns H fuel now L L' hmine
    subst hL'
    refine checksAt_append H L.chain _ tip htip ?_ ?_ ih
    · exact mineIter_hash H k _ rfl
    · exact (mineIter_frame H k _).2.2.2

/-- Replacing one field of a non-genesis block of a reachable ledger by a
different value of its type makes `isChainValid` false, when the hasher does
not give the old and the new preimage the same digest. -/
theorem tamper_invalid (H : String → String) (L : Blockchain)
    (hL : Reachable H L) (i : Nat) (b c : Block) (hi : 1 ≤ i) (hb : L.chain[i]? = some b)
    (hrep : b.oneFieldReplaced c)
    (hfree : H b.preimage = H c.preimage → b.preimage = c.preimage) :
    (L.tamper i c).isChainValid H = false := by
  have hlt : i < L.chain.length := by
    rcases Nat.lt_or_ge i L.chain.length with h | h
    · exact h
    · rw [List.getElem?_eq_none h] at hb
      cases hb
  have hp : L.chain[i - 1]? = some (L.chain[i - 1]) := List.getElem?_eq_getElem (by omega)
  have hcur := (reachable_checks H L hL i hi hlt b _ hb hp).1
  refine isChainValid_false_of H (L.tamper i c) i c (L.chain[i - 1]) hi ?_ ?_
    (Or.inl (oneFieldReplaced_hash_stale H b c hcur hrep hfree))
  · show (L.chain.set i c)[i]? = some c
    exact List.getElem?_set_self hlt
  · show (L.chain.set i c)[i - 1]? = some _
    rw [List.getElem?_set_ne (by omega)]
    exact hp

/-! ## The claims -/

set_option maxRecDepth 1000000

/-- C1: every ledger state reached from `new Blockchain()` by any finite
sequence of `addTransaction` and `minePendingTransactions` calls, with any
payloads and clock readings, passes `isChainValid()`. -/
theorem reachable_isChainValid (H : String → String) (L : Blockchain)
    (h : Reachable H L) : L.isChainValid H = true := by
  rw [isChainValid_iff_checks]
  exact reachable_checks H L h

/-- Witness of C1: the ledger after one `addTransaction` and one commit under
SHA-256 is reachable, and valid. -/
theorem reachable_isChainValid_witness :
    Reachable sha256hex demoLedger ∧ demoLedger.isChainValid sha256hex = true :=
  have h : Reachable sha256hex demoLedger :=
    Reachable.mine _ _ 1 1700000002994
      (Reachable.add _ demoTx (Reachable.init 1700000000000)) (by decide!)
  ⟨h, reachable_isChainValid sha256hex demoLedger h⟩

/-- C2: for every difficulty `d` and every candidate block (a block as the
constructor returns it), if `mineBlock(d)` returns, then the hash of the block
has at least `d` characters, its first `d` characters are all `'0'`, and the
hash equals `calculateHash()` on the final field values. -/
theorem mineBlock_candidate_sealed (H : String → String) (index : Nat) (timestamp : String)
    (transactions : JsonValue) (previousHash : String) (d fuel : Nat) (mined : Block)
    (h : (Block.new H index timestamp transactions previousHash).mineBlock H fuel d
      = .returned mined) :
    (d ≤ mined.hash.length ∧ ∀ i, i < d → mined.hash.data[i]? = some '0') ∧
      mined.hash = mined.calculateHash H := by
  obtain ⟨k, _, hb, hmeets, _⟩ := mineBlock_returns H d fuel _ _ h
  refine ⟨(meetsDifficulty_iff _ _).1 hmeets, ?_⟩
  rw [hb]
  exact mineIter_hash H k _ rfl

/-- Witness of C2: mining the candidate of the concrete scenario at
difficulty 3 under SHA-256 returns after one iteration. -/
theorem mineBlock_candidate_sealed_witness :
    (Block.new sha256hex 1 "1700000002994" (.arr [demoTx])
        "48c2aefc6d179fdee9d852023da0b679dc0dba8c0dd59ac5da61a8fe0fb252d5").mineBlock
        sha256hex 1 3 = .returned demoBlock1 ∧
    ((3 ≤ demoBlock1.hash.length ∧ ∀ i, i < 3 → demoBlock1.hash.data[i]? = some '0') ∧
      demoBlock1.hash = demoBlock1.calculateHash sha256hex) :=
  have h : (Block.new sha256hex 1 "1700000002994" (.arr [demoTx])
      "48c2aefc6d179fdee9d852023da0b679dc0dba8c0dd59ac5da61a8fe0fb252d5").mineBlock
      sha256hex 1 3 = .returned demoBlock1 := by decide!
  ⟨h, mineBlock_candidate_sealed sha256hex 1 "1700000002994" (.arr [demoTx])
    "48c2aefc6d179fdee9d852023da0b679dc0dba8c0dd59ac5da61a8fe0fb252d5" 3 1 demoBlock1 h⟩

/-- The claim C3 as the specification states it fails on the code: a field
can be replaced by a different value that renders to the same text. After the
commit of the concrete scenario under SHA-256, overwriting the index 1 of
`chain[1]` by the string `"1"`, or its nonce 1 by the string `"1"`, without
recomputing the hash, leaves `isChainValid()` true. -/
theorem retyped_field_undetected :
    Blockchain.minePendingTransactions sha256hex 1 1700000002994
        ((Blockchain.new sha256hex 1700000000000).addTransaction demoTx)
      = .returned demoLedger ∧
    demoLedger.chain.map Block.toLoose = [demoGenesis.toLoose, demoBlock1.toLoose] ∧
    looseIsChainValid sha256hex [demoGenesis.toLoose, demoBlock1.toLoose] = true ∧
    JsScalar.str "1" ≠ demoBlock1.toLoose.index ∧
    looseIsChainValid sha256hex
      [demoGenesis.toLoose, { demoBlock1.toLoose with index := .str "1" }] = true ∧
    JsScalar.str "1" ≠ demoBlock1.toLoose.nonce ∧
    looseIsChainValid sha256hex
      [demoGenesis.toLoose, { demoBlock1.toLoose with nonce := .str "1" }] = true := by
  decide!

/-- C3, amended: in every ledger reached by commits, replacing any one field
(index, timestamp, transactions, previousHash, nonce or hash) of a non-genesis
block by a different value of the type of that field, without recomputing the
hash, makes `isChainValid()` return false, provided the hasher does not give
the preimage before and the preimage after the change the same digest (no
collision at that pair; so in particular under every injective hasher). -/
theorem tamper_one_field_detected (H : String → String) (L : Blockchain)
    (hL : Reachable H L) (i : Nat) (b c : Block) (hi : 1 ≤ i) (hb : L.chain[i]? = some b)
    (hrep : b.oneFieldReplaced c)
    (hfree : H b.preimage = H c.preimage → b.preimage = c.preimage) :
    (L.tamper i c).isChainValid H = false :=
  tamper_invalid H L hL i b c hi hb hrep hfree

/-- Witness of C3 as amended, the scenario of the claim under SHA-256: after
committing the payload, the message of `chain[1].transactions[0]` is set to
`"tampered"`, and `isChainValid()` returns false. -/
theorem tamper_one_field_detected_witness :
    (Reachable sha256hex demoLedger ∧ 1 ≤ 1 ∧ demoLedger.chain[1]? = some demoBlock1 ∧
      demoBlock1.oneFieldReplaced { demoBlock1 with transactions := .arr [demoTamperedTx] } ∧
      (sha256hex demoBlock1.preimage =
          sha256hex (Block.preimage { demoBlock1 with transactions := .arr [demoTamperedTx] }) →
        demoBlock1.preimage =
          Block.preimage { demoBlock1 with transactions := .arr [demoTamperedTx] })) ∧
    (demoLedger.tamper 1
      { demoBlock1 with transactions := .arr [demoTamperedTx] }).isChainValid sha256hex
      = false :=
  have hreach : Reachable sha256hex demoLedger :=
    Reachable.mine _ _ 1 1700000002994
      (Reachable.add _ demoTx (Reachable.init 1700000000000)) (by decide!)
  have hrep : demoBlock1.oneFieldReplaced
      { demoBlock1 with transactions := .arr [demoTamperedTx] } :=
    Or.inr (Or.inr (Or.inl ⟨.arr [demoTamperedTx], by decide, rfl⟩))
  have hfree : sha256hex demoBlock1.preimage =
      sha256hex (Block.preimage { demoBlock1 with transactions := .arr [demoTamperedTx] }) →
      demoBlock1.preimage =
        Block.preimage { demoBlock1 with transactions := .arr [demoTamperedTx] } := by
    decide!
  ⟨⟨hreach, by decide, rfl, hrep, hfree⟩,
   tamper_one_field_detected sha256hex demoLedger hreach 1 demoBlock1
    { demoBlock1 with transactions := .arr [demoTamperedTx] } (by decide) rfl hrep hfree⟩

/-- C4: in every ledger state, at every position `i` with
`1 <= i < chain.length`, a `previousHash` of `chain[i]` that differs from the
hash of `chain[i-1]` makes `isChainValid()` return false, whatever the other
fields hold and whatever the hash function is. -/
theorem previousHash_mismatch_detected (H : String → String) (L : Blockchain) (i : Nat)
    (current previous : Block) (hi : 1 ≤ i) (hc : L.chain[i]? = some current)
    (hp : L.chain[i - 1]? = some previous) (hne : current.previousHash ≠ previous.hash) :
    L.isChainValid H = false :=
  isChainValid_false_of H L i current previous hi hc hp (Or.inr hne)

/-- Witness of C4: the ledger of the concrete scenario with the
`previousHash` of `chain[1]` set to `"0"`. -/
theorem previousHash_mismatch_detected_witness :
    (1 ≤ 1 ∧
      [demoGenesis, { demoBlock1 with previousHash := "0" }][1]?
        = some { demoBlock1 with previousHash := "0" } ∧
      [demoGenesis, { demoBlock1 with previousHash := "0" }][1 - 1]? = some demoGenesis ∧
      ({ demoBlock1 with previousHash := "0" } : Block).previousHash ≠ demoGenesis.hash) ∧
    Blockchain.isChainValid sha256hex
      { chain := [demoGenesis, { demoBlock1 with previousHash := "0" }], difficulty := 3,
        pendingTransactions := [] } = false :=
  ⟨⟨by decide, rfl, rfl, by decide⟩,
   previousHash_mismatch_detected sha256hex
    { chain := [demoGenesis, { demoBlock1 with previousHash := "0" }], difficulty := 3,
      pendingTransactions := [] } 1 { demoBlock1 with previousHash := "0" } demoGenesis
    (by decide) rfl rfl (by decide)⟩

/-- C5: a commit that returns appends exactly one block; its index is the
chain length before the call, its `previousHash` is the hash of the tip before
the call, and its transactions are the pending queue of that moment, in order.
With an empty queue the block appended has an empty transaction list. (A
commit returns only on a non-empty chain: on an empty one it throws.) -/
theorem commit_appends_block (H : String → String) (fuel : Nat) (now : Int)
    (L L' : Blockchain) (h : L.minePendingTransactions H fuel now = .returned L') :
    ∃ b tip, L'.chain = L.chain ++ [b] ∧ b.index = L.chain.length ∧
      L.chain.getLast? = some tip ∧ b.previousHash = tip.hash ∧
      b.transactions = .arr L.pendingTransactions ∧
      (L.pendingTransactions = [] → b.transactions = .arr []) := by
  obtain ⟨tip, k, htip, _, hL', _⟩ := minePending_returns H fuel now L L' h
  subst hL'
  obtain ⟨h1, _, h3, h4⟩ := mineIter_frame H k
    (Block.new H L.chain.length (toString now) (.arr L.pendingTransactions) tip.hash)
  refine ⟨_, tip, rfl, h1, ?_, h4, h3, ?_⟩
  · rw [List.getLast?_eq_getElem?]
    exact htip
  · intro he
    rw [h3, he]
    rfl

/-- Witness of C5: a commit with an empty pending queue on the genesis block
alone, under SHA-256, appends `demoEmptyBlock`. -/
theorem commit_appends_block_witness :
    Blockchain.minePendingTransactions sha256hex 1 1700000000493
        { chain := [demoGenesis], difficulty := 3, pendingTransactions := [] }
        = .returned { chain := [demoGenesis, demoEmptyBlock], difficulty := 3,
                      pendingTransactions := [] } ∧
    ∃ b tip, [demoGenesis, demoEmptyBlock] = [demoGenesis] ++ [b] ∧ b.index = 1 ∧
      [demoGenesis].getLast? = some tip ∧ b.previousHash = tip.hash ∧
      b.transactions = .arr [] ∧ (([] : List JsonValue) = [] → b.transactions = .arr []) :=
  have h : Blockchain.minePendingTransactions sha256hex 1 1700000000493
      { chain := [demoGenesis], difficulty := 3, pendingTransactions := [] }
      = .returned { chain := [demoGenesis, demoEmptyBlock], difficulty := 3,
                    pendingTransactions := [] } := by decide!
  ⟨h, commit_appends_block sha256hex 1 1700000000493
    { chain := [demoGenesis], difficulty := 3, pendingTransactions := [] }
    { chain := [demoGenesis, demoEmptyBlock], difficulty := 3, pendingTransactions := [] } h⟩

/-- C6: the chain is append-only under commit. After a commit that returns,
the new chain is the old chain followed by one new block (so every earlier
position holds the same block and the length grows by exactly 1), the pending
queue is empty and the difficulty is unchanged. -/
theorem commit_append_only (H : String → String) (fuel : Nat) (now : Int)
    (L L' : Blockchain) (h : L.minePendingTransactions H fuel now = .returned L') :
    (∃ b, L'.chain = L.chain ++ [b]) ∧
      (∀ i, i < L.chain.length → L'.chain[i]? = L.chain[i]?) ∧
      L'.chain.length = L.chain.length + 1 ∧
      L'.pendingTransactions = [] ∧ L'.difficulty = L.difficulty := by
  obtain ⟨tip, k, _, _, hL', _⟩ := minePending_returns H fuel now L L' h
  subst hL'
  refine ⟨⟨_, rfl⟩, ?_, by simp, rfl, rfl⟩
  intro i hi
  exact List.getElem?_append_left hi

/-- Witness of C6: the commit of the concrete scenario under SHA-256. -/
theorem commit_append_only_witness :
    Blockchain.minePendingTransactions sha256hex 1 1700000002994
        { chain := [demoGenesis], difficulty := 3, pendingTransactions := [demoTx] }
        = .returned demoLedger ∧
    ((∃ b, demoLedger.chain = [demoGenesis] ++ [b]) ∧
      (∀ i, i < [demoGenesis].length → demoLedger.chain[i]? = [demoGenesis][i]?) ∧
      demoLedger.chain.length = [demoGenesis].length + 1 ∧
      demoLedger.pendingTransactions = [] ∧ demoLedger.difficulty = 3) :=
  have h : Blockchain.minePendingTransactions sha256hex 1 1700000002994
      { chain := [demoGenesis], difficulty := 3, pendingTransactions := [demoTx] }
      = .returned demoLedger := by decide!
  ⟨h, commit_append_only sha256hex 1 1700000002994
    { chain := [demoGenesis], difficulty := 3, pendingTransactions := [demoTx] } demoLedger h⟩

/-- C7: `isChainValid()` returns true if and only if at every position `i`
with `1 <= i < chain.length` the hash of `chain[i]` equals its
`calculateHash()` and its `previousHash` equals the hash of `chain[i-1]`. It
returns true for every chain of length 1, whatever the genesis block holds,
and the call leaves the ledger as it was. -/
theorem isChainValid_iff (H : String → String) (L : Blockchain) :
    (L.isChainValid H = true ↔
      ∀ i, 1 ≤ i → i < L.chain.length → ∀ current previous,
        L.chain[i]? = some current → L.chain[i - 1]? = some previous →
        current.hash = current.calculateHash H ∧ current.previousHash = previous.hash) ∧
    (L.chain.length = 1 → L.isChainValid H = true) ∧
    (L.isChainValidCall H).2 = L := by
  refine ⟨isChainValid_iff_checks H L, ?_, rfl⟩
  intro h1
  rw [isChainValid_iff_checks]
  intro i hi hlt
  omega

/-- C8: `isChainValid()` does not check proof-of-work. Under SHA-256 there is
a ledger of difficulty 3 whose block at position 1 has a hash equal to its
`calculateHash()`, is linked to the genesis block, has a hash that does not
start with `"000"`, and `isChainValid()` returns true on it. For every hash
function the result does not depend on the `difficulty` field. -/
theorem isChainValid_ignores_difficulty :
    (∃ (L : Blockchain) (b g : Block), L.difficulty = 3 ∧ L.chain[1]? = some b ∧
      L.chain[0]? = some g ∧ b.hash = b.calculateHash sha256hex ∧ b.previousHash = g.hash ∧
      substring0 b.hash 3 ≠ "000" ∧ L.isChainValid sha256hex = true) ∧
    (∀ (H : String → String) (L : Blockchain) (d : Nat),
      Blockchain.isChainValid H { L with difficulty := d } = L.isChainValid H) :=
  ⟨⟨{ chain := [demoGenesis, demoUnmined], difficulty := 3, pendingTransactions := [] },
     demoUnmined, demoGenesis, rfl, rfl, rfl, by decide!, by decide!, by decide!, by decide!⟩,
   fun _ _ _ => rfl⟩

/-- C9: `new Block(index, timestamp, transactions, previousHash)` holds
exactly those four values, nonce 0, and the hash `calculateHash()` gives over
those values and nonce 0. `calculateHash()` leaves the block as it was, and
returns the same digest on blocks that agree on index, timestamp,
transactions, previousHash and nonce. -/
theorem block_new_spec (H : String → String) (index : Nat) (timestamp : String)
    (transactions : JsonValue) (previousHash : String) :
    ((Block.new H index timestamp transactions previousHash).index = index ∧
      (Block.new H index timestamp transactions previousHash).timestamp = timestamp ∧
      (Block.new H index timestamp transactions previousHash).transactions = transactions ∧
      (Block.new H index timestamp transactions previousHash).previousHash = previousHash ∧
      (Block.new H index timestamp transactions previousHash).nonce = 0 ∧
      (Block.new H index timestamp transactions previousHash).hash =
        H (toString index ++ timestamp ++ stringify transactions ++ previousHash ++ "0") ∧
      (Block.new H index timestamp transactions previousHash).hash =
        (Block.new H index timestamp transactions previousHash).calculateHash H) ∧
    (∀ b : Block, (b.calculateHashCall H).2 = b) ∧
    (∀ b c : Block, b.index = c.index → b.timestamp = c.timestamp →
      b.transactions = c.transactions → b.previousHash = c.previousHash →
      b.nonce = c.nonce → b.calculateHash H = c.calculateHash H) :=
  ⟨⟨rfl, rfl, rfl, rfl, rfl,
    by simp only [Block.new, Block.calculateHash, Block.preimage]; rfl, rfl⟩,
   fun _ => rfl, calculateHash_congr H⟩

/-- C10: for every block, `mineBlock(0)` returns with zero loop iterations
(already with no fuel at all) and returns the block as it was, nonce and hash
included. -/
theorem mineBlock_zero (H : String → String) (b : Block) :
    b.mineBlock H 0 0 = .returned b ∧ ∀ fuel, b.mineBlock H fuel 0 = .returned b := by
  have hm : meetsDifficulty b.hash 0 = true := by
    rw [meetsDifficulty_iff]
    exact ⟨Nat.zero_le _, fun i hi => absurd hi (Nat.not_lt_zero i)⟩
  refine ⟨by rw [mineBlock_zero_eq H b 0 (by decide)]; simp [hm], ?_⟩
  intro fuel
  cases fuel
  · rw [mineBlock_zero_eq H b 0 (by decide)]
    simp [hm]
  · rw [mineBlock_succ_eq H _ b 0 (by decide)]
    simp [hm]

/-! ## Lemmas on sequences of calls -/

theorem reachable_of_steps (H : String → String) (now : Int) (L : Blockchain)
    (h : Steps H (Blockchain.new H now) L) : Reachable H L := by
  induction h with
  | refl => exact Reachable.init now
  | tail M N _ hstep ih =>
    cases hstep
    · exact Reachable.add M _ ih
    · rename_i fuel now' hm
      exact Reachable.mine M N fuel now' ih hm

theorem steps_of_reachable (H : String → String) (L : Blockchain) (h : Reachable H L) :
    ∃ now, Steps H (Blockchain.new H now) L := by
  induction h with
  | init now => exact ⟨now, Steps.refl _⟩
  | add L tx _ ih =>
    obtain ⟨now, hs⟩ := ih
    exact ⟨now, Steps.tail _ _ _ hs (Step.add L tx)⟩
  | mine L L' fuel now' _ hm ih =>
    obtain ⟨now, hs⟩ := ih
    exact ⟨now, Steps.tail _ _ _ hs (Step.mine L L' fuel now' hm)⟩

/-- A step keeps every block already in the chain, at its position, and the
difficulty. -/
theorem step_frame (H : String → String) (L L' : Blockchain) (h : Step H L L') :
    (∀ (i : Nat) (b : Block), L.chain[i]? = some b → L'.chain[i]? = some b) ∧ L'.difficulty = L.difficulty ∧
      L.chain.length ≤ L'.chain.length := by
  cases h
  · exact ⟨fun _ _ hb => hb, rfl, le_refl _⟩
  · rename_i fuel now hm
    obtain ⟨tip, k, _, _, hL', _⟩ := minePending_returns H fuel now L L' hm
    subst hL'
    refine ⟨?_, rfl, by simp⟩
    intro i b hb
    have hlt : i < L.chain.length := by
      rcases Nat.lt_or_ge i L.chain.length with h | h
      · exact h
      · rw [List.getElem?_eq_none h] at hb
        cases hb
    show (L.chain ++ _)[i]? = some b
    rw [List.getElem?_append_left hlt]
    exact hb

theorem steps_frame (H : String → String) (L L' : Blockchain) (h : Steps H L L') :
    (∀ (i : Nat) (b : Block), L.chain[i]? = some b → L'.chain[i]? = some b) ∧ L'.difficulty = L.difficulty ∧
      L.chain.length ≤ L'.chain.length := by
  induction h with
  | refl => exact ⟨fun _ _ hb => hb, rfl, le_refl _⟩
  | tail M N _ hstep ih =>
    obtain ⟨h1, h2, h3⟩ := step_frame H M N hstep
    exact ⟨fun i b hb => h1 i b (ih.1 i b hb), h2.trans ih.2.1, le_trans ih.2.2 h3⟩

theorem getElem?_append_singleton (l : List Block) (x : Block) (i : Nat) (b : Block)
    (hb : (l ++ [x])[i]? = some b) : l[i]? = some b ∨ (i = l.length ∧ b = x) := by
  rcases Nat.lt_or_ge i l.length with hlt | hge
  · rw [List.getElem?_append_left hlt] at hb
    exact Or.inl hb
  · rw [List.getElem?_append_right hge] at hb
    rcases Nat.eq_or_lt_of_le hge with heq | hgt
    · subst heq
      simp only [Nat.sub_self, List.getElem?_cons_zero, Option.some.injEq] at hb
      exact Or.inr ⟨rfl, hb.symm⟩
    · have : i - l.length = (i - l.length - 1) + 1 := by omega
      rw [this] at hb
      simp at hb

/-- In a reachable ledger the difficulty is 3, every block holds its position
as index, and every block from position 1 on meets difficulty 3. -/
theorem reachable_shape (H : String → String) (L : Blockchain) (h : Reachable H L) :
    L.difficulty = 3 ∧ L.chain ≠ [] ∧ (∀ (i : Nat) (b : Block), L.chain[i]? = some b → b.index = i) ∧
      (∀ (i : Nat) (b : Block), 1 ≤ i → L.chain[i]? = some b → meetsDifficulty b.hash 3 = true) := by
  induction h with
  | init now =>
    refine ⟨rfl, by simp [Blockchain.new], ?_, ?_⟩
    · intro i b hb
      cases i with
      | zero =>
        simp only [Blockchain.new, List.getElem?_cons_zero, Option.some.injEq] at hb
        rw [← hb]
        rfl
      | succ j => simp [Blockchain.new] at hb
    · intro i b hi hb
      cases i with
      | zero => omega
      | succ j => simp [Blockchain.new] at hb
  | add L tx _ ih => exact ih
  | mine L L' fuel now _ hm ih =>
    obtain ⟨hd, hne, hidx, hseal⟩ := ih
    obtain ⟨tip, k, _, _, hL', hmeets⟩ := minePending_returns H fuel now L L' hm
    subst hL'
    rw [hd] at hmeets
    have key := fun (i : Nat) (b : Block) => getElem?_append_singleton L.chain
      (Block.mineIter H k (Block.new H L.chain.length (toString now)
        (.arr L.pendingTransactions) tip.hash)) i b
    refine ⟨hd, by simp, ?_, ?_⟩
    · intro i b hb
      rcases key i b hb with h1 | ⟨h1, h2⟩
      · exact hidx i b h1
      · rw [h2, h1]
        exact (mineIter_frame H k _).1
    · intro i b hi hb
      rcases key i b hb with h1 | ⟨_, h2⟩
      · exact hseal i b hi h1
      · rw [h2]
        exact hmeets

/-! ## Lemmas on the nonce search -/

theorem nextNonce_le (n : Nat) (h : n ≤ 2 ^ 53) : nextNonce n = min (n + 1) (2 ^ 53) := by
  unfold nextNonce
  split <;> omega

theorem mineIter_nonce (H : String → String) (k : Nat) (b : Block) (hb : b.nonce = 0) :
    (Block.mineIter H k b).nonce = min k (2 ^ 53) := by
  induction k with
  | zero => simpa [Block.mineIter] using hb
  | succ k ih =>
    rw [mineIter_succ]
    show nextNonce (Block.mineIter H k b).nonce = _
    rw [ih, nextNonce_le _ (Nat.min_le_right _ _)]
    omega

/-- Once the nonce has reached `2^53` the loop body changes nothing. -/
theorem mineStep_stalled (H : String → String) (b : Block) (hn : b.nonce = 2 ^ 53)
    (hh : b.hash = b.calculateHash H) : b.mineStep H = b := by
  have h1 : nextNonce b.nonce = b.nonce := by
    unfold nextNonce
    rw [hn]
    simp
  unfold Block.mineStep
  simp only [h1]
  rw [← hh]

theorem mineIter_stalled (H : String → String) (b : Block) (hb : b.nonce = 0)
    (hh : b.hash = b.calculateHash H) (k : Nat) (hk : 2 ^ 53 ≤ k) :
    Block.mineIter H k b = Block.mineIter H (2 ^ 53) b := by
  induction k with
  | zero => omega
  | succ k ih =>
    rcases Nat.eq_or_lt_of_le hk with heq | hlt
    · rw [← heq]
    · have hk' : 2 ^ 53 ≤ k := by omega
      rw [mineIter_succ, ih hk']
      apply mineStep_stalled
      · rw [mineIter_nonce H _ b hb]
        simp
      · exact mineIter_hash H _ b hh

/-- The hash after `j` iterations on a candidate block is the digest of its
four fixed fields and the nonce reached. -/
theorem mineIter_candidate_hash (H : String → String) (b : Block) (hb : b.nonce = 0)
    (hh : b.hash = b.calculateHash H) (j : Nat) (hj : j ≤ 2 ^ 53) :
    (Block.mineIter H j b).hash = Block.calculateHash H { b with nonce := j } := by
  rw [mineIter_hash H j b hh]
  obtain ⟨h1, h2, h3, h4⟩ := mineIter_frame H j b
  refine calculateHash_congr H _ _ h1 h2 h3 h4 ?_
  rw [mineIter_nonce H j b hb]
  exact Nat.min_eq_left hj

/-- A returning `mineBlock` on a block with nonce 0 and a current hash ran a
number of iterations that is at most `2^53` and equals the final nonce. -/
theorem mineBlock_iterations (H : String → String) (d fuel : Nat) (b mined : Block)
    (hb : b.nonce = 0) (hh : b.hash = b.calculateHash H)
    (h : b.mineBlock H fuel d = .returned mined) :
    mined.nonce ≤ fuel ∧ mined.nonce ≤ 2 ^ 53 ∧ mined = Block.mineIter H mined.nonce b ∧
      meetsDifficulty mined.hash d = true ∧
      ∀ j, j < mined.nonce → meetsDifficulty (Block.mineIter H j b).hash d = false := by
  obtain ⟨k, hk, hm, hmeets, hbefore⟩ := mineBlock_returns H d fuel b mined h
  have hk53 : k ≤ 2 ^ 53 := by
    rcases Nat.lt_or_ge (2 ^ 53) k with hgt | hle
    · exfalso
      have h1 := hbefore (2 ^ 53) hgt
      rw [← mineIter_stalled H b hb hh k (Nat.le_of_lt hgt), ← hm, hmeets] at h1
      cases h1
    · exact hle
  have hn : mined.nonce = k := by
    rw [hm, mineIter_nonce H k b hb]
    exact Nat.min_eq_left hk53
  rw [hn]
  exact ⟨hk, hk53, hm, hmeets, hbefore⟩

theorem sha256hex_length (s : String) : (sha256hex s).length = 64 := by
  simp [sha256hex, String.length, hexWord]

/-- With digests shorter than the difficulty, and a difficulty below the
bound of array lengths, the loop never ends. -/
theorem mineBlock_outOfFuel_of_short (H : String → String) (d : Nat)
    (hd : d + 1 < 4294967296) (hH : ∀ s, (H s).length < d) :
    ∀ (fuel : Nat) (b : Block), b.hash.length < d → b.mineBlock H fuel d = .outOfFuel
  | 0, b => by
    intro hb
    have hm : meetsDifficulty b.hash d = false := by
      cases hv : meetsDifficulty b.hash d with
      | false => rfl
      | true =>
        have := ((meetsDifficulty_iff _ _).1 hv).1
        omega
    rw [mineBlock_zero_eq H b d hd]
    simp [hm]
  | fuel + 1, b => by
    intro hb
    have hm : meetsDifficulty b.hash d = false := by
      cases hv : meetsDifficulty b.hash d with
      | false => rfl
      | true =>
        have := ((meetsDifficulty_iff _ _).1 hv).1
        omega
    rw [mineBlock_succ_eq H fuel b d hd]
    simp only [hm, Bool.false_eq_true, if_false]
    exact mineBlock_outOfFuel_of_short H d hd hH fuel (b.mineStep H) (hH _)

theorem tamper_genesis_checks (H : String → String) (chain : List Block) (g g' : Block)
    (hg : chain[0]? = some g) (hh : g'.hash = g.hash) (i : Nat) (hi : 1 ≤ i) :
    checksAt H (chain.set 0 g') i ↔ checksAt H chain i := by
  have hcur : (chain.set 0 g')[i]? = chain[i]? := List.getElem?_set_ne (by omega)
  unfold checksAt
  rw [hcur]
  rcases Nat.eq_or_lt_of_le hi with h1 | h1
  · subst h1
    have hlen : 0 < chain.length := by
      rcases Nat.lt_or_ge 0 chain.length with h | h
      · exact h
      · rw [List.getElem?_eq_none h] at hg
        cases hg
    have hprev : (chain.set 0 g')[1 - 1]? = some g' := List.getElem?_set_self hlen
    have hg0 : chain[1 - 1]? = some g := hg
    rw [hprev, hg0]
    constructor
    · intro hall cur prev hc hp
      cases hp
      have := hall cur g' hc rfl
      rw [hh] at this
      exact this
    · intro hall cur prev hc hp
      cases hp
      have := hall cur g hc rfl
      rw [hh]
      exact this
  · have hprev : (chain.set 0 g')[i - 1]? = chain[i - 1]? := List.getElem?_set_ne (by omega)
    rw [hprev]

/-! ## Lemmas on arrays held by reference -/

theorem txField_read_set (heap : List (List JsonValue)) (p : Nat) (v : List JsonValue)
    (t : TxField) (ht : t ≠ .ref p) : t.read (heap.set p v) = t.read heap := by
  cases t with
  | sentinel s => rfl
  | ref a =>
    have hne : p ≠ a := by
      intro h
      exact ht (by rw [h])
    simp only [TxField.read, List.getD_eq_getElem?_getD, List.getElem?_set_ne hne]

theorem txField_read_append (heap : List (List JsonValue)) (extra : List (List JsonValue))
    (t : TxField) (ht : ∀ a, t = .ref a → a < heap.length) :
    t.read (heap ++ extra) = t.read heap := by
  cases t with
  | sentinel s => rfl
  | ref a =>
    simp only [TxField.read, List.getD_eq_getElem?_getD,
      List.getElem?_append_left (ht a rfl)]

/-- On a ledger object whose queue array is held by no block, `addTransaction`
is `addTransaction` on the ledger of values. -/
theorem read_addTransaction (R : RefLedger) (tx : JsonValue) (hwf : R.wellFormed)
    (hun : R.unshared) :
    (R.addTransaction tx).read = R.read.addTransaction tx := by
  unfold RefLedger.read RefLedger.addTransaction Blockchain.addTransaction
  simp only [Blockchain.mk.injEq, true_and]
  constructor
  · apply List.map_congr_left
    intro b hb
    unfold RefBlock.read
    rw [txField_read_set _ _ _ _ (hun b hb)]
  · simp only [List.getD_eq_getElem?_getD, List.getElem?_set_self hwf.1, Option.getD_some]

theorem addTransaction_wellFormed (R : RefLedger) (tx : JsonValue) (hwf : R.wellFormed)
    (hun : R.unshared) : (R.addTransaction tx).wellFormed ∧ (R.addTransaction tx).unshared := by
  refine ⟨⟨?_, ?_⟩, hun⟩
  · simpa [RefLedger.addTransaction] using hwf.1
  · intro b hb a ha
    simpa [RefLedger.addTransaction] using hwf.2 b hb a ha

/-- What a returning commit on a ledger object did. -/
theorem ref_minePending_returns (H : String → String) (fuel : Nat) (now : Int)
    (R R' : RefLedger) (h : R.minePendingTransactions H fuel now = .returned R') :
    ∃ tip mined, R.chain[R.chain.length - 1]? = some tip ∧
      (Block.new H R.chain.length (toString now)
        (.arr (R.heap.getD R.pendingTransactions [])) tip.hash).mineBlock H fuel R.difficulty
        = .returned mined ∧
      R' = { heap := R.heap ++ [[]],
             chain := R.chain ++ [RefBlock.ofBlock (.ref R.pendingTransactions) mined],
             difficulty := R.difficulty, pendingTransactions := R.heap.length } := by
  unfold RefLedger.minePendingTransactions at h
  split at h
  · cases h
  · rename_i tip htip
    simp only at h
    split at h
    · cases h
    · cases h
    · rename_i mined hmined
      cases h
      exact ⟨tip, mined, htip, hmined, rfl⟩

/-- A returning commit leaves a ledger object whose queue is a fresh array,
held by no block. -/
theorem minePending_wellFormed (H : String → String) (fuel : Nat) (now : Int)
    (R R' : RefLedger) (hwf : R.wellFormed)
    (h : R.minePendingTransactions H fuel now = .returned R') :
    R'.wellFormed ∧ R'.unshared := by
  obtain ⟨tip, mined, _, _, hR'⟩ := ref_minePending_returns H fuel now R R' h
  subst hR'
  have hrefs : ∀ b ∈ R.chain ++ [RefBlock.ofBlock (.ref R.pendingTransactions) mined],
      ∀ a, b.transactions = .ref a → a < R.heap.length := by
    intro b hb a ha
    rcases List.mem_append.1 hb with hb | hb
    · exact hwf.2 b hb a ha
    · simp only [List.mem_singleton] at hb
      subst hb
      simp only [RefBlock.ofBlock, TxField.ref.injEq] at ha
      rw [← ha]
      exact hwf.1
  refine ⟨⟨by simp, ?_⟩, ?_⟩
  · intro b hb a ha
    have := hrefs b hb a ha
    simp only [List.length_append, List.length_singleton]
    omega
  · intro b hb hshare
    have hlt : R.heap.length < R.heap.length := hrefs b hb _ hshare
    omega

/-- On a well-formed ledger object, `minePendingTransactions` is
`minePendingTransactions` on the ledger of values. -/
theorem read_minePendingTransactions (H : String → String) (fuel : Nat) (now : Int)
    (R : RefLedger) (hwf : R.wellFormed) :
    (R.minePendingTransactions H fuel now).map RefLedger.read =
      R.read.minePendingTransactions H fuel now := by
  have hlen : R.read.chain.length = R.chain.length := by simp [RefLedger.read]
  have htip : R.read.chain[R.read.chain.length - 1]? =
      (R.chain[R.chain.length - 1]?).map (RefBlock.read R.heap) := by
    rw [hlen]
    simp [RefLedger.read]
  unfold RefLedger.minePendingTransactions Blockchain.minePendingTransactions
    Blockchain.getLatestBlock
  rw [htip, hlen]
  cases R.chain[R.chain.length - 1]? with
  | none => rfl
  | some tip =>
    simp only [Option.map_some']
    have hcand : Block.new H R.chain.length (toString now)
        (.arr R.read.pendingTransactions) (RefBlock.read R.heap tip).hash =
        Block.new H R.chain.length (toString now)
          (.arr (R.heap.getD R.pendingTransactions [])) tip.hash := rfl
    rw [hcand]
    have hdiff : R.read.difficulty = R.difficulty := rfl
    rw [hdiff]
    cases hm : (Block.new H R.chain.length (toString now)
        (.arr (R.heap.getD R.pendingTransactions [])) tip.hash).mineBlock H fuel
        R.difficulty with
    | outOfFuel => rfl
    | threw => rfl
    | returned mined =>
      simp only [Outcome.map]
      congr 1
      obtain ⟨k, _, hk, _, _⟩ := mineBlock_returns H _ _ _ _ hm
      have htx : mined.transactions = .arr (R.heap.getD R.pendingTransactions []) := by
        rw [hk]
        exact (mineIter_frame H k _).2.2.1
      unfold RefLedger.read
      simp only [Blockchain.mk.injEq, List.map_append, List.map_cons, List.map_nil]
      refine ⟨?_, ?_⟩
      · congr 1
        · apply List.map_congr_left
          intro b hb
          unfold RefBlock.read
          rw [txField_read_append _ _ _ (hwf.2 b hb)]
        · have hr : RefBlock.read (R.heap ++ [[]])
              (RefBlock.ofBlock (.ref R.pendingTransactions) mined) = mined := by
            unfold RefBlock.read RefBlock.ofBlock
            simp only
            rw [txField_read_append _ _ _ (fun a ha => by cases ha; exact hwf.1)]
            simp only [TxField.read]
            rw [← htx]
          rw [hr]
      · simp [List.getD_eq_getElem?_getD]

theorem new_wellFormed (H : String → String) (now : Int) :
    (RefLedger.new H now).wellFormed ∧ (RefLedger.new H now).unshared ∧
      (RefLedger.new H now).read = Blockchain.new H now := by
  refine ⟨⟨by simp [RefLedger.new], ?_⟩, ?_, rfl⟩
  · intro b hb a ha
    simp only [RefLedger.new, List.mem_singleton] at hb
    subst hb
    simp [RefBlock.ofBlock] at ha
  · intro b hb
    simp only [RefLedger.new, List.mem_singleton] at hb
    subst hb
    simp [RefBlock.ofBlock]

/-! ## Lemmas on the `/send-sms` route -/

/-- A commit throws only on an empty chain or with a difficulty from
`2^32 - 1` on. -/
theorem minePending_threw (H : String → String) (fuel : Nat) (now : Int) (L : Blockchain)
    (h : L.minePendingTransactions H fuel now = .threw) :
    L.chain = [] ∨ ¬ L.difficulty + 1 < 4294967296 := by
  unfold Blockchain.minePendingTransactions Blockchain.getLatestBlock at h
  split at h
  · rename_i hnone
    left
    rcases Nat.lt_or_ge (L.chain.length - 1) L.chain.length with hlt | hge
    · rw [List.getElem?_eq_getElem hlt] at hnone
      cases hnone
    · exact List.length_eq_zero.1 (by omega)
  · simp only at h
    split at h
    · cases h
    · rename_i hm
      right
      intro hd
      have := mineBlock_returns_or_outOfFuel H _ _ _ hd hm
      exact this
    · cases h

/-- A request that is not complete, or whose delivery fails, is answered with
an error and makes no call into the ledger. -/
theorem sendSms_rejected (H : String → String) (env : SmsEnv) (req : SmsRequest)
    (L : Blockchain) (h : req.complete = false ∨ env.delivery = none) :
    ∃ status text, (status = 400 ∨ status = 500) ∧
      sendSms H env req L = .returned ⟨status, errorBody text, L, []⟩ := by
  unfold sendSms
  unfold SmsRequest.complete at h
  cases hto : req.to_ with
  | none => exact ⟨400, _, Or.inl rfl, rfl⟩
  | some to_ =>
    cases hmsg : req.message with
    | none => exact ⟨400, _, Or.inl rfl, rfl⟩
    | some message =>
      rw [hto, hmsg] at h
      simp only at h ⊢
      by_cases hc : (!to_.truthy || !message.truthy) = true
      · rw [if_pos hc]
        exact ⟨400, _, Or.inl rfl, rfl⟩
      · rw [if_neg hc]
        rcases h with h | h
        · exfalso
          apply hc
          revert h
          cases to_.truthy <;> cases message.truthy <;> simp
        · rw [h]
          exact ⟨500, _, Or.inr rfl, rfl⟩

/-- What an answered request did when it was complete and delivered. -/
theorem sendSms_delivered (H : String → String) (env : SmsEnv) (to_ message : JsonValue)
    (sid : String) (L : Blockchain) (hto : to_.truthy = true) (hmsg : message.truthy = true)
    (hdel : env.delivery = some sid) :
    sendSms H env ⟨some to_, some message⟩ L =
      match (L.addTransaction (smsTransaction to_ message sid env.isoTime)).minePendingTransactions
          H env.fuel env.now with
      | .returned L2 =>
        .returned ⟨200, successBody sid L2.chain.length, L2,
          [.addTransaction (smsTransaction to_ message sid env.isoTime),
           .minePendingTransactions]⟩
      | .threw =>
        .returned ⟨500, errorBody "Failed to send SMS",
          L.addTransaction (smsTransaction to_ message sid env.isoTime),
          [.addTransaction (smsTransaction to_ message sid env.isoTime),
           .minePendingTransactions]⟩
      | .outOfFuel => .outOfFuel := by
  unfold sendSms
  simp only [hto, hmsg, hdel, Bool.not_true, Bool.or_self, Bool.false_eq_true, if_false]

/-- What holds of every ledger the server reaches: the difficulty is 3, the
queue is empty, the chain is not, and every non-genesis block holds exactly
one transaction, built by the handler from a delivery that succeeded. -/
theorem serverReachable_inv (H : String → String) (sids : List String) (L : Blockchain)
    (h : ServerReachable H sids L) :
    L.difficulty = 3 ∧ L.pendingTransactions = [] ∧ L.chain ≠ [] ∧
      ∀ (i : Nat) (b : Block), 1 ≤ i → L.chain[i]? = some b →
        ∃ to_ message sid isoTime,
          b.transactions = .arr [smsTransaction to_ message sid isoTime] ∧ sid ∈ sids := by
  induction h with
  | start now =>
    refine ⟨rfl, rfl, by simp [Blockchain.new], ?_⟩
    intro i b hi hb
    cases i with
    | zero => omega
    | succ j => simp [Blockchain.new] at hb
  | request sids L env req r _ hsend ih =>
    obtain ⟨hdiff, hpend, hne, hblocks⟩ := ih
    have hweak : ∀ (i : Nat) (b : Block), 1 ≤ i → L.chain[i]? = some b →
        ∃ to_ message sid isoTime,
          b.transactions = .arr [smsTransaction to_ message sid isoTime] ∧
            sid ∈ deliveredSid env req ++ sids := by
      intro i b hi hb
      obtain ⟨t, m, s, iso, h1, h2⟩ := hblocks i b hi hb
      exact ⟨t, m, s, iso, h1, List.mem_append_right _ h2⟩
    by_cases hrej : req.complete = false ∨ env.delivery = none
    · obtain ⟨status, text, _, hr⟩ := sendSms_rejected H env req L hrej
      rw [hr] at hsend
      cases hsend
      exact ⟨hdiff, hpend, hne, hweak⟩
    · have hcomp : req.complete = true := by
        cases hc : req.complete with
        | true => rfl
        | false => exact absurd (Or.inl hc) hrej
      obtain ⟨sid, hdel⟩ : ∃ sid, env.delivery = some sid := by
        cases hd : env.delivery with
        | none => exact absurd (Or.inr hd) hrej
        | some sid => exact ⟨sid, rfl⟩
      obtain ⟨to_, message, hreq, hto, hmsg⟩ : ∃ to_ message,
          req = ⟨some to_, some message⟩ ∧ to_.truthy = true ∧ message.truthy = true := by
        cases req with
        | mk rt rm =>
          cases rt with
          | none => simp [SmsRequest.complete] at hcomp
          | some t =>
            cases rm with
            | none => simp [SmsRequest.complete] at hcomp
            | some m =>
              simp only [SmsRequest.complete, Bool.and_eq_true] at hcomp
              exact ⟨t, m, rfl, hcomp.1, hcomp.2⟩
      have hsids : deliveredSid env req = [sid] := by
        simp [deliveredSid, hcomp, hdel]
      rw [hreq, sendSms_delivered H env to_ message sid L hto hmsg hdel] at hsend
      cases hm : (L.addTransaction
          (smsTransaction to_ message sid env.isoTime)).minePendingTransactions
          H env.fuel env.now with
      | outOfFuel =>
        rw [hm] at hsend
        cases hsend
      | threw =>
        exfalso
        rcases minePending_threw H _ _ _ hm with h0 | h0
        · exact hne h0
        · apply h0
          show L.difficulty + 1 < 4294967296
          rw [hdiff]
          decide
      | returned L2 =>
        rw [hm] at hsend
        cases hsend
        obtain ⟨tip, k, _, _, hL2, _⟩ := minePending_returns H _ _ _ _ hm
        subst hL2
        refine ⟨hdiff, rfl, by simp, ?_⟩
        intro i b hi hb
        rcases getElem?_append_singleton _ _ i b hb with h1 | ⟨_, h2⟩
        · exact hweak i b hi h1
        · refine ⟨to_, message, sid, env.isoTime, ?_, ?_⟩
          · rw [h2, (mineIter_frame H k _).2.2.1]
            show JsonValue.arr (L.pendingTransactions ++ [_]) = _
            rw [hpend]
            rfl
          · rw [hsids]
            simp

/-! ## The claims, continued -/

/-- C11: a freshly constructed `Blockchain` has a chain of exactly one block,
the genesis block, with index 0, the sentinel `"Genesis Block"` as
transactions, previousHash `"0"`, nonce 0 (it is never mined: its hash is that
of the constructor, whatever it starts with) and a hash equal to its
`calculateHash()`; the pending queue is empty and the difficulty is 3. -/
theorem new_blockchain_spec (H : String → String) (now : Int) :
    ∃ g, (Blockchain.new H now).chain = [g] ∧ g.index = 0 ∧
      g.transactions = .str "Genesis Block" ∧ g.previousHash = "0" ∧ g.nonce = 0 ∧
      g.timestamp = toString now ∧
      g.hash = g.calculateHash H ∧
      g.hash = H ("0" ++ toString now ++ "\"Genesis Block\"" ++ "0" ++ "0") ∧
      (Blockchain.new H now).pendingTransactions = [] ∧
      (Blockchain.new H now).difficulty = 3 := by
  refine ⟨createGenesisBlock H now, rfl, rfl, rfl, rfl, rfl, rfl, rfl, ?_, rfl, rfl⟩
  simp only [createGenesisBlock, Block.new, Block.calculateHash, Block.preimage]
  rfl

/-- C12: `addTransaction(tx)` is total (it never fails) and sets the pending
queue to the old queue followed by `tx`, leaving chain and difficulty as they
were; no payload is inspected. On the objects of the program, where the block
sealed by a commit holds the very array that was the queue: the call changes
no field of the ledger object or of a block object, only the queue array;
when no block holds the queue array it is `addTransaction` on the values; and
after a commit that returns no block holds the queue array, so an
`addTransaction` after a commit changes the transactions of no block of the
chain, the sealed one included. -/
theorem addTransaction_spec :
    (∀ (L : Blockchain) (tx : JsonValue),
      (L.addTransaction tx).pendingTransactions = L.pendingTransactions ++ [tx] ∧
      (L.addTransaction tx).chain = L.chain ∧
      (L.addTransaction tx).difficulty = L.difficulty) ∧
    (∀ (R : RefLedger) (tx : JsonValue), R.wellFormed →
      (R.addTransaction tx).chain = R.chain ∧
      (R.addTransaction tx).difficulty = R.difficulty ∧
      (R.addTransaction tx).pendingTransactions = R.pendingTransactions ∧
      (R.addTransaction tx).read.pendingTransactions = R.read.pendingTransactions ++ [tx] ∧
      (R.unshared → (R.addTransaction tx).read = R.read.addTransaction tx)) ∧
    (∀ (H : String → String) (fuel : Nat) (now : Int) (R R' : RefLedger) (tx : JsonValue),
      R.wellFormed → R.minePendingTransactions H fuel now = .returned R' →
      R.read.minePendingTransactions H fuel now = .returned R'.read ∧
      R'.unshared ∧
      (R'.addTransaction tx).read.chain = R'.read.chain ∧
      (R'.addTransaction tx).read.pendingTransactions = [tx]) := by
  refine ⟨fun L tx => ⟨rfl, rfl, rfl⟩, ?_, ?_⟩
  · intro R tx hwf
    refine ⟨rfl, rfl, rfl, ?_, fun hun => read_addTransaction R tx hwf hun⟩
    simp only [RefLedger.read, RefLedger.addTransaction, List.getD_eq_getElem?_getD,
      List.getElem?_set_self hwf.1, Option.getD_some]
  · intro H fuel now R R' tx hwf hm
    obtain ⟨hwf', hun'⟩ := minePending_wellFormed H fuel now R R' hwf hm
    have hread := read_minePendingTransactions H fuel now R hwf
    rw [hm] at hread
    have hadd := read_addTransaction R' tx hwf' hun'
    refine ⟨hread.symm, hun', by rw [hadd]; rfl, ?_⟩
    rw [hadd]
    obtain ⟨_, _, _, _, hR'⟩ := ref_minePending_returns H fuel now R R' hm
    subst hR'
    simp [Blockchain.addTransaction, RefLedger.read, List.getD_eq_getElem?_getD]

/-- Witness of C12: on the objects of the concrete scenario under SHA-256,
a payload is added after the commit. -/
theorem addTransaction_spec_witness :
    ((RefLedger.new sha256hex 1700000000000).addTransaction demoTx).wellFormed ∧
    RefLedger.minePendingTransactions sha256hex 1 1700000002994
        ((RefLedger.new sha256hex 1700000000000).addTransaction demoTx)
      = .returned
          { heap := [[demoTx], []],
            chain := [RefBlock.ofBlock (.sentinel "Genesis Block") demoGenesis,
                      RefBlock.ofBlock (.ref 0) demoBlock1],
            difficulty := 3, pendingTransactions := 1 } ∧
    (RefLedger.addTransaction
        { heap := [[demoTx], []],
          chain := [RefBlock.ofBlock (.sentinel "Genesis Block") demoGenesis,
                    RefBlock.ofBlock (.ref 0) demoBlock1],
          difficulty := 3, pendingTransactions := 1 } demoTamperedTx).read.chain
      = [demoGenesis, demoBlock1] :=
  have hwf : ((RefLedger.new sha256hex 1700000000000).addTransaction demoTx).wellFormed :=
    (addTransaction_wellFormed _ demoTx (new_wellFormed sha256hex 1700000000000).1
      (new_wellFormed sha256hex 1700000000000).2.1).1
  have hm : RefLedger.minePendingTransactions sha256hex 1 1700000002994
      ((RefLedger.new sha256hex 1700000000000).addTransaction demoTx)
      = .returned
          { heap := [[demoTx], []],
            chain := [RefBlock.ofBlock (.sentinel "Genesis Block") demoGenesis,
                      RefBlock.ofBlock (.ref 0) demoBlock1],
            difficulty := 3, pendingTransactions := 1 } := by decide!
  ⟨hwf, hm, (addTransaction_spec.2.2 sha256hex 1 1700000002994 _ _ demoTamperedTx hwf hm).2.2.1⟩

/-- C13: in every ledger state reached from `new Blockchain()` (clock reading
`now`) by `addTransaction` and `minePendingTransactions` calls, the chain is
non-empty, `chain[0]` is the genesis block created at construction, every
block holds its position as index, and `getLatestBlock()` returns the last
block of the chain (never `undefined`). -/
theorem reachable_chain_shape (H : String → String) (now : Int) (L : Blockchain)
    (h : Steps H (Blockchain.new H now) L) :
    L.chain ≠ [] ∧ L.chain[0]? = some (createGenesisBlock H now) ∧
      (∀ (i : Nat) (b : Block), L.chain[i]? = some b → b.index = i) ∧
      ∃ tip, L.getLatestBlock = some tip ∧ L.chain[L.chain.length - 1]? = some tip ∧
        L.chain.getLast? = some tip := by
  obtain ⟨_, hne, hidx, _⟩ := reachable_shape H L (reachable_of_steps H now L h)
  refine ⟨hne, (steps_frame H _ L h).1 0 _ rfl, hidx, ?_⟩
  have hlen : L.chain.length - 1 < L.chain.length := by
    have : L.chain.length ≠ 0 := fun h0 => hne (List.length_eq_zero.1 h0)
    omega
  refine ⟨L.chain[L.chain.length - 1], List.getElem?_eq_getElem hlen,
    List.getElem?_eq_getElem hlen, ?_⟩
  rw [List.getLast?_eq_getElem?]
  exact List.getElem?_eq_getElem hlen

/-- Witness of C13: the ledger of the concrete scenario under SHA-256. -/
theorem reachable_chain_shape_witness :
    Steps sha256hex (Blockchain.new sha256hex 1700000000000) demoLedger ∧
    (demoLedger.chain ≠ [] ∧
      demoLedger.chain[0]? = some (createGenesisBlock sha256hex 1700000000000) ∧
      (∀ (i : Nat) (b : Block), demoLedger.chain[i]? = some b → b.index = i) ∧
      ∃ tip, demoLedger.getLatestBlock = some tip ∧
        demoLedger.chain[demoLedger.chain.length - 1]? = some tip ∧
        demoLedger.chain.getLast? = some tip) :=
  have h : Steps sha256hex (Blockchain.new sha256hex 1700000000000) demoLedger :=
    Steps.tail _ _ _ (Steps.tail _ _ _ (Steps.refl _) (Step.add _ demoTx))
      (Step.mine _ _ 1 1700000002994 (by decide!))
  ⟨h, reachable_chain_shape sha256hex 1700000000000 demoLedger h⟩

/-- C14: in every ledger state `L` reached from `new Blockchain()` the
difficulty is 3, the value fixed at construction, and every non-genesis block
is sealed: its hash has at least three characters and starts with three `'0'`
characters. Whatever calls follow (leading to `L'`), every block of `L` is
still in the chain at its position, identical in every field, nonce and hash
included, and the difficulty is still 3. -/
theorem reachable_sealed_and_frozen (H : String → String) (now : Int) (L L' : Blockchain)
    (h : Steps H (Blockchain.new H now) L) (h' : Steps H L L') :
    L.difficulty = 3 ∧ L'.difficulty = 3 ∧
      (∀ (i : Nat) (b : Block), 1 ≤ i → L.chain[i]? = some b →
        3 ≤ b.hash.length ∧ ∀ j, j < 3 → b.hash.data[j]? = some '0') ∧
      (∀ (i : Nat) (b : Block), L.chain[i]? = some b →
        ∃ b', L'.chain[i]? = some b' ∧ b' = b ∧ b'.nonce = b.nonce ∧ b'.hash = b.hash) := by
  obtain ⟨hd, _, _, hseal⟩ := reachable_shape H L (reachable_of_steps H now L h)
  obtain ⟨hframe, hd', _⟩ := steps_frame H L L' h'
  refine ⟨hd, hd'.trans hd, ?_, ?_⟩
  · intro i b hi hb
    exact (meetsDifficulty_iff _ _).1 (hseal i b hi hb)
  · intro i b hb
    exact ⟨b, hframe i b hb, rfl, rfl, rfl⟩

/-- Witness of C14: the ledger of the concrete scenario, followed by a second
commit, under SHA-256. -/
theorem reachable_sealed_and_frozen_witness :
    (Steps sha256hex (Blockchain.new sha256hex 1700000000000) demoLedger ∧
      Steps sha256hex demoLedger
        { chain := [demoGenesis, demoBlock1, demoBlock2], difficulty := 3,
          pendingTransactions := [] }) ∧
    demoLedger.difficulty = 3 ∧
    (∀ (i : Nat) (b : Block), 1 ≤ i → demoLedger.chain[i]? = some b →
        3 ≤ b.hash.length ∧ ∀ j, j < 3 → b.hash.data[j]? = some '0') ∧
    (∀ (i : Nat) (b : Block), demoLedger.chain[i]? = some b →
        ∃ b', [demoGenesis, demoBlock1, demoBlock2][i]? = some b' ∧ b' = b ∧
          b'.nonce = b.nonce ∧ b'.hash = b.hash) :=
  have h : Steps sha256hex (Blockchain.new sha256hex 1700000000000) demoLedger :=
    Steps.tail _ _ _ (Steps.tail _ _ _ (Steps.refl _) (Step.add _ demoTx))
      (Step.mine _ _ 1 1700000002994 (by decide!))
  have h' : Steps sha256hex demoLedger
      { chain := [demoGenesis, demoBlock1, demoBlock2], difficulty := 3,
        pendingTransactions := [] } :=
    Steps.tail _ _ _ (Steps.refl _) (Step.mine _ _ 2 1700000004541 (by decide!))
  have r := reachable_sealed_and_frozen sha256hex 1700000000000 demoLedger _ h h'
  ⟨⟨h, h'⟩, r.1, r.2.2.1, r.2.2.2⟩

/-- The claim C15 as the specification states it fails on the code: in the
concrete scenario under SHA-256 the handler answers with a body none of whose
properties is the hash of the new tip. -/
theorem sendSms_response_lacks_digest :
    sendSms sha256hex
        { delivery := some "SM1", isoTime := "t1", now := 1700000002994, fuel := 1 }
        { to_ := some (.str "+15551234567"), message := some (.str "hi") }
        (Blockchain.new sha256hex 1700000000000)
      = .returned
          { status := 200, body := successBody "SM1" 2, ledger := demoLedger,
            calls := [.addTransaction demoTx, .minePendingTransactions] } ∧
    demoLedger.getLatestBlock = some demoBlock1 ∧
    ∀ kv ∈ (successBody "SM1" 2).fields, kv.2 ≠ .str demoBlock1.hash := by
  decide!

/-- C15, amended: on a `/send-sms` request that succeeds (`to` and `message`
truthy, the delivery resolved with `sid`, the commit returned) the response
has status 200 and the body `success: true`, the `sid` of the delivery and
`blockchainHeight`, the new chain length, which is the chain length at the
moment the ledger was invoked plus 1; the ledger made exactly the two calls
`addTransaction` and `minePendingTransactions`. The hash of the new block is
not in the response. -/
theorem sendSms_success_response (H : String → String) (env : SmsEnv)
    (to_ message : JsonValue) (sid : String) (L L2 : Blockchain)
    (hto : to_.truthy = true) (hmsg : message.truthy = true)
    (hdel : env.delivery = some sid)
    (hmine : (L.addTransaction
        (smsTransaction to_ message sid env.isoTime)).minePendingTransactions
        H env.fuel env.now = .returned L2) :
    sendSms H env ⟨some to_, some message⟩ L =
        .returned
          { status := 200, body := successBody sid (L.chain.length + 1), ledger := L2,
            calls := [.addTransaction (smsTransaction to_ message sid env.isoTime),
                      .minePendingTransactions] } ∧
      L2.chain.length = L.chain.length + 1 ∧
      (successBody sid (L.chain.length + 1)).fields =
        [("success", .bool true), ("sid", .str sid),
         ("blockchainHeight", .num (L.chain.length + 1 : Nat))] := by
  have hlen : L2.chain.length = L.chain.length + 1 := by
    obtain ⟨_, _, _, _, hL2, _⟩ := minePending_returns H _ _ _ _ hmine
    subst hL2
    simp [Blockchain.addTransaction]
  refine ⟨?_, hlen, rfl⟩
  rw [sendSms_delivered H env to_ message sid L hto hmsg hdel, hmine]
  simp only [hlen]

/-- Witness of C15 as amended: the request of the concrete scenario under
SHA-256. -/
theorem sendSms_success_response_witness :
    Blockchain.minePendingTransactions sha256hex 1 1700000002994
        ((Blockchain.new sha256hex 1700000000000).addTransaction
          (smsTransaction (.str "+15551234567") (.str "hi") "SM1" "t1"))
      = .returned demoLedger ∧
    sendSms sha256hex
        { delivery := some "SM1", isoTime := "t1", now := 1700000002994, fuel := 1 }
        { to_ := some (.str "+15551234567"), message := some (.str "hi") }
        (Blockchain.new sha256hex 1700000000000)
      = .returned
          { status := 200, body := successBody "SM1" (1 + 1), ledger := demoLedger,
            calls := [.addTransaction (smsTransaction (.str "+15551234567") (.str "hi")
                        "SM1" "t1"),
                      .minePendingTransactions] } :=
  have hm : Blockchain.minePendingTransactions sha256hex 1 1700000002994
      ((Blockchain.new sha256hex 1700000000000).addTransaction
        (smsTransaction (.str "+15551234567") (.str "hi") "SM1" "t1"))
      = .returned demoLedger := by decide!
  ⟨hm, (sendSms_success_response sha256hex
    { delivery := some "SM1", isoTime := "t1", now := 1700000002994, fuel := 1 }
    (.str "+15551234567") (.str "hi") "SM1" (Blockchain.new sha256hex 1700000000000)
    demoLedger rfl rfl rfl hm).1⟩

/-- C16: for every ledger and every `/send-sms` request, if `to` or `message`
is missing (or falsy) or the delivery fails, the handler answers with an
error, makes no call into the ledger and leaves the ledger exactly as it was.
So in every ledger the server reaches, every transaction in a non-genesis
block is one the handler built, carrying the `sid` of a delivery that
succeeded. -/
theorem sendSms_failure_leaves_ledger :
    (∀ (H : String → String) (env : SmsEnv) (req : SmsRequest) (L : Blockchain),
      (req.to_ = none ∨ req.message = none ∨ req.complete = false ∨ env.delivery = none) →
      ∃ status text, (status = 400 ∨ status = 500) ∧
        sendSms H env req L =
          .returned { status := status, body := errorBody text, ledger := L, calls := [] }) ∧
    (∀ (H : String → String) (sids : List String) (L : Blockchain),
      ServerReachable H sids L →
      ∀ (i : Nat) (b : Block), 1 ≤ i → L.chain[i]? = some b →
        ∃ to_ message sid isoTime,
          b.transactions = .arr [smsTransaction to_ message sid isoTime] ∧ sid ∈ sids) := by
  refine ⟨?_, fun H sids L h => (serverReachable_inv H sids L h).2.2.2⟩
  intro H env req L h
  apply sendSms_rejected H env req L
  rcases h with h | h | h | h
  · left
    simp [SmsRequest.complete, h]
  · left
    cases hto : req.to_ <;> simp [SmsRequest.complete, h, hto]
  · exact Or.inl h
  · exact Or.inr h

/-- Witness of C16: on the ledger of the concrete scenario, reached by the
server under SHA-256, a request whose delivery fails. -/
theorem sendSms_failure_leaves_ledger_witness :
    ServerReachable sha256hex ["SM1"] demoLedger ∧
    (∃ status text, (status = 400 ∨ status = 500) ∧
      sendSms sha256hex
          { delivery := none, isoTime := "t2", now := 1700000004541, fuel := 2 }
          { to_ := some (.str "+15551234567"), message := some (.str "again") } demoLedger =
        .returned { status := status, body := errorBody text, ledger := demoLedger,
                    calls := [] }) ∧
    (∀ (i : Nat) (b : Block), 1 ≤ i → demoLedger.chain[i]? = some b →
        ∃ to_ message sid isoTime,
          b.transactions = .arr [smsTransaction to_ message sid isoTime] ∧
            sid ∈ ["SM1"]) :=
  have hreach : ServerReachable sha256hex ["SM1"] demoLedger :=
    ServerReachable.request [] (Blockchain.new sha256hex 1700000000000)
      { delivery := some "SM1", isoTime := "t1", now := 1700000002994, fuel := 1 }
      { to_ := some (.str "+15551234567"), message := some (.str "hi") }
      { status := 200, body := successBody "SM1" 2, ledger := demoLedger,
        calls := [.addTransaction demoTx, .minePendingTransactions] }
      (ServerReachable.start 1700000000000) (by decide!)
  ⟨hreach,
   sendSms_failure_leaves_ledger.1 sha256hex
    { delivery := none, isoTime := "t2", now := 1700000004541, fuel := 2 }
    { to_ := some (.str "+15551234567"), message := some (.str "again") } demoLedger
    (Or.inr (Or.inr (Or.inr rfl))),
   sendSms_failure_leaves_ledger.2 sha256hex ["SM1"] demoLedger hreach⟩

/-- C17: for every candidate block (constructor-built: nonce 0, hash current)
and every difficulty `d`, if `mineBlock(d)` returns, then the final nonce `n`
is the least natural number whose digest, over the four constructor arguments
and that nonce, passes the difficulty test; the final hash is that digest; the
loop ran exactly `n` iterations (fuel `n` suffices, any smaller fuel runs
out, and the result is the block after `n` loop bodies); each iteration raised the
nonce by 1; index, timestamp, transactions and previousHash are unchanged. -/
theorem mineBlock_least_nonce (H : String → String) (index : Nat) (timestamp : String)
    (transactions : JsonValue) (previousHash : String) (d fuel : Nat) (mined : Block)
    (h : (Block.new H index timestamp transactions previousHash).mineBlock H fuel d
      = .returned mined) :
    (meetsDifficulty (Block.calculateHash H
        { Block.new H index timestamp transactions previousHash with nonce := mined.nonce })
        d = true ∧
      ∀ n, n < mined.nonce → meetsDifficulty (Block.calculateHash H
        { Block.new H index timestamp transactions previousHash with nonce := n }) d = false) ∧
    mined.hash = H (toString index ++ timestamp ++ stringify transactions ++ previousHash ++
      toString mined.nonce) ∧
    (mined = Block.mineIter H mined.nonce (Block.new H index timestamp transactions previousHash) ∧
      (Block.new H index timestamp transactions previousHash).mineBlock H mined.nonce d
        = .returned mined ∧
      ∀ f, f < mined.nonce →
        (Block.new H index timestamp transactions previousHash).mineBlock H f d
          = .outOfFuel) ∧
    (∀ j, j < mined.nonce →
      (Block.mineIter H (j + 1) (Block.new H index timestamp transactions previousHash)).nonce
        = (Block.mineIter H j (Block.new H index timestamp transactions previousHash)).nonce
          + 1) ∧
    mined.index = index ∧ mined.timestamp = timestamp ∧ mined.transactions = transactions ∧
      mined.previousHash = previousHash := by
  obtain ⟨_, h53, hm, hmeets, hbefore⟩ :=
    mineBlock_iterations H d fuel _ mined rfl rfl h
  have hd : d + 1 < 4294967296 := mineBlock_bound H fuel _ d (by rw [h]; simp)
  have hhash := mineIter_candidate_hash H
    (Block.new H index timestamp transactions previousHash) rfl rfl
  have hfinal : mined.hash = Block.calculateHash H
      { Block.new H index timestamp transactions previousHash with nonce := mined.nonce } := by
    conv_lhs => rw [hm]
    exact hhash mined.nonce h53
  obtain ⟨f1, f2, f3, f4⟩ := mineIter_frame H mined.nonce
    (Block.new H index timestamp transactions previousHash)
  refine ⟨⟨?_, ?_⟩, hfinal, ⟨hm, ?_, ?_⟩, ?_, ?_, ?_, ?_, ?_⟩
  · rw [← hfinal]
    exact hmeets
  · intro n hn
    rw [← hhash n (by omega)]
    exact hbefore n hn
  · have := mineBlock_of_first H d hd mined.nonce mined.nonce
      (Block.new H index timestamp transactions previousHash) (le_refl _)
      (by rw [← hm]; exact hmeets) hbefore
    rw [this, ← hm]
  · intro f hf
    cases hr : (Block.new H index timestamp transactions previousHash).mineBlock H f d with
    | outOfFuel => rfl
    | threw => exact absurd hr (mineBlock_returns_or_outOfFuel H d f _ hd)
    | returned other =>
      exfalso
      obtain ⟨k, hk, hother, hmo, _⟩ := mineBlock_returns H d f _ other hr
      have := hbefore k (by omega)
      rw [← hother, hmo] at this
      cases this
  · intro j hj
    rw [mineIter_nonce H _ _ rfl, mineIter_nonce H _ _ rfl]
    omega
  · rw [hm]; exact f1
  · rw [hm]; exact f2
  · rw [hm]; exact f3
  · rw [hm]; exact f4

/-- Witness of C17: mining the candidate of the second commit of the concrete
scenario at difficulty 3 under SHA-256 returns with nonce 2. -/
theorem mineBlock_least_nonce_witness :
    (Block.new sha256hex 2 "1700000004541" (.arr [])
        "000f1a8ff260da23f33e7ad2ce36d4d851cf1b7291d9b1bd355ac9b0e5c8c4f3").mineBlock
        sha256hex 5 3 = .returned demoBlock2 ∧
    demoBlock2.nonce = 2 ∧
    (∀ n, n < demoBlock2.nonce → meetsDifficulty (Block.calculateHash sha256hex
        { Block.new sha256hex 2 "1700000004541" (.arr [])
            "000f1a8ff260da23f33e7ad2ce36d4d851cf1b7291d9b1bd355ac9b0e5c8c4f3" with
          nonce := n }) 3 = false) :=
  have h : (Block.new sha256hex 2 "1700000004541" (.arr [])
      "000f1a8ff260da23f33e7ad2ce36d4d851cf1b7291d9b1bd355ac9b0e5c8c4f3").mineBlock
      sha256hex 5 3 = .returned demoBlock2 := by decide!
  ⟨h, rfl, (mineBlock_least_nonce sha256hex 2 "1700000004541" (.arr [])
    "000f1a8ff260da23f33e7ad2ce36d4d851cf1b7291d9b1bd355ac9b0e5c8c4f3" 3 5 demoBlock2 h).1.2⟩

/-- C18: tampering with the genesis block is not detected. In every ledger,
overwriting `chain[0]` by a block with the same hash and any index, timestamp,
transactions, previousHash and nonce leaves the result of `isChainValid()`
unchanged. -/
theorem genesis_tamper_undetected (H : String → String) (L : Blockchain) (g g' : Block)
    (hg : L.chain[0]? = some g) (hh : g'.hash = g.hash) :
    (L.tamper 0 g').isChainValid H = L.isChainValid H := by
  rw [Bool.eq_iff_iff, isChainValid_iff_checks, isChainValid_iff_checks]
  have hlen : (L.tamper 0 g').chain.length = L.chain.length := by
    simp [Blockchain.tamper]
  rw [hlen]
  constructor
  · intro hall i hi hlt
    exact (tamper_genesis_checks H L.chain g g' hg hh i hi).1 (hall i hi hlt)
  · intro hall i hi hlt
    exact (tamper_genesis_checks H L.chain g g' hg hh i hi).2 (hall i hi hlt)

/-- Witness of C18: in the ledger of the concrete scenario under SHA-256 the
genesis block is overwritten in all five fields; its hash is no longer its
`calculateHash()`, and `isChainValid()` still returns true. -/
theorem genesis_tamper_undetected_witness :
    (demoLedger.chain[0]? = some demoGenesis ∧
      ({ index := 7, timestamp := "0", transactions := .arr [demoTamperedTx],
         previousHash := "f", nonce := 9, hash := demoGenesis.hash } : Block).hash
        = demoGenesis.hash) ∧
    ({ index := 7, timestamp := "0", transactions := .arr [demoTamperedTx],
       previousHash := "f", nonce := 9, hash := demoGenesis.hash } : Block).hash ≠
      Block.calculateHash sha256hex
        { index := 7, timestamp := "0", transactions := .arr [demoTamperedTx],
          previousHash := "f", nonce := 9, hash := demoGenesis.hash } ∧
    demoLedger.isChainValid sha256hex = true ∧
    (demoLedger.tamper 0
      { index := 7, timestamp := "0", transactions := .arr [demoTamperedTx],
        previousHash := "f", nonce := 9, hash := demoGenesis.hash }).isChainValid sha256hex
      = demoLedger.isChainValid sha256hex :=
  ⟨⟨rfl, rfl⟩, by decide!, by decide!,
   genesis_tamper_undetected sha256hex demoLedger demoGenesis
    { index := 7, timestamp := "0", transactions := .arr [demoTamperedTx],
      previousHash := "f", nonce := 9, hash := demoGenesis.hash } rfl rfl⟩

/-- C19: the digest preimage is not injective in the fields. A block with
index 1 and timestamp `"23"` and a block with index 12 and timestamp `"3"`,
all else equal, have the same preimage and so the same `calculateHash()`,
whatever the hash function. Consequently, in the valid ledger of the concrete
scenario under SHA-256, changing index and timestamp of the sealed block
`chain[1]` together, without recomputing its hash, leaves `isChainValid()`
true. -/
theorem preimage_not_injective :
    (∀ (H : String → String) (transactions : JsonValue) (previousHash : String)
        (nonce : Nat) (hash : String),
      splitBlockA transactions previousHash nonce hash ≠
        splitBlockB transactions previousHash nonce hash ∧
      (splitBlockA transactions previousHash nonce hash).preimage =
        (splitBlockB transactions previousHash nonce hash).preimage ∧
      (splitBlockA transactions previousHash nonce hash).calculateHash H =
        (splitBlockB transactions previousHash nonce hash).calculateHash H) ∧
    (Blockchain.minePendingTransactions sha256hex 1 1700000002994
        ((Blockchain.new sha256hex 1700000000000).addTransaction demoTx)
        = .returned demoLedger ∧
      demoLedger.isChainValid sha256hex = true ∧
      demoLedger.chain[1]? = some demoBlock1 ∧
      demoBlock1.index ≠ 11 ∧ demoBlock1.timestamp ≠ "700000002994" ∧
      (demoLedger.tamper 1
        { demoBlock1 with index := 11, timestamp := "700000002994" }).isChainValid sha256hex
        = true) := by
  have hpre : toString (1 : Nat) ++ "23" = toString (12 : Nat) ++ "3" := by decide
  refine ⟨?_, by decide!, by decide!, rfl, by decide!, by decide!, by decide!⟩
  intro H transactions previousHash nonce hash
  have hp : (splitBlockA transactions previousHash nonce hash).preimage =
      (splitBlockB transactions previousHash nonce hash).preimage := by
    simp only [Block.preimage, splitBlockA, splitBlockB, hpre]
  refine ⟨?_, hp, ?_⟩
  · intro he
    have := congrArg Block.index he
    simp [splitBlockA, splitBlockB] at this
  · simp only [Block.calculateHash, hp]

/-- The claim C20 as the specification states it fails on the code: at
difficulty `2^32 - 1`, which is above 64, the loop condition of `mineBlock`
is not true but throws (`Array(2^32)` is a `RangeError`), and `mineBlock`
ends at once, with no fuel at all, by an exception. -/
theorem mineBlock_throws_at_array_bound :
    64 < 4294967295 ∧
    loopCondition (Block.new sha256hex 1 "1700000002994" (.arr [demoTx])
      "48c2aefc6d179fdee9d852023da0b679dc0dba8c0dd59ac5da61a8fe0fb252d5").hash 4294967295
      = none ∧
    (Block.new sha256hex 1 "1700000002994" (.arr [demoTx])
      "48c2aefc6d179fdee9d852023da0b679dc0dba8c0dd59ac5da61a8fe0fb252d5").mineBlock
      sha256hex 0 4294967295 = .threw ∧
    (Block.new sha256hex 1 "1700000002994" (.arr [demoTx])
      "48c2aefc6d179fdee9d852023da0b679dc0dba8c0dd59ac5da61a8fe0fb252d5").mineBlock
      sha256hex 0 4294967295 ≠ .outOfFuel :=
  ⟨by decide, loopCondition_of_ge _ _ (by decide),
   mineBlock_threw_of_ge sha256hex 0 _ 4294967295 (by decide),
   by rw [mineBlock_threw_of_ge sha256hex 0 _ 4294967295 (by decide)]; simp⟩

/-- C20, amended: the difficulty test cannot be passed above the digest
length. `calculateHash()` under SHA-256 always has 64 characters, so for every
difficulty `d > 64` the digest of every block fails the test. When `d + 1` is
below `2^32` the loop condition is therefore true at every nonce and
`mineBlock(d)` on a candidate block runs out of every amount of fuel: it
never returns and never throws. From `d + 1 = 2^32` on the loop condition
throws at its first evaluation, so `mineBlock(d)` ends at once with an
exception, on every block and with every fuel. -/
theorem mineBlock_never_returns_above_64 (d : Nat) (hd : 64 < d) (index : Nat)
    (timestamp : String) (transactions : JsonValue) (previousHash : String) :
    (∀ b : Block, (b.calculateHash sha256hex).length = 64) ∧
    (∀ b : Block, meetsDifficulty (b.calculateHash sha256hex) d = false) ∧
    (d + 1 < 4294967296 →
      (∀ b : Block, loopCondition (b.calculateHash sha256hex) d = some true) ∧
      ∀ fuel, (Block.new sha256hex index timestamp transactions previousHash).mineBlock
        sha256hex fuel d = .outOfFuel) ∧
    (¬ d + 1 < 4294967296 →
      ∀ (fuel : Nat) (b : Block), b.mineBlock sha256hex fuel d = .threw) := by
  have hfail : ∀ b : Block, meetsDifficulty (b.calculateHash sha256hex) d = false := by
    intro b
    cases hv : meetsDifficulty (b.calculateHash sha256hex) d with
    | false => rfl
    | true =>
      have h1 := ((meetsDifficulty_iff _ _).1 hv).1
      rw [Block.calculateHash, sha256hex_length] at h1
      omega
  refine ⟨fun b => sha256hex_length _, hfail, ?_, ?_⟩
  · intro hbound
    refine ⟨?_, ?_⟩
    · intro b
      rw [loopCondition_of_lt _ d hbound, hfail b]
      rfl
    · intro fuel
      apply mineBlock_outOfFuel_of_short sha256hex d hbound
      · intro s
        rw [sha256hex_length]
        exact hd
      · show (sha256hex _).length < d
        rw [sha256hex_length]
        exact hd
  · intro hbound fuel b
    exact mineBlock_threw_of_ge sha256hex fuel b d hbound

/-- Witness of C20 as amended: difficulty 65 on the candidate of the concrete
scenario. -/
theorem mineBlock_never_returns_above_64_witness :
    64 < 65 ∧
    ∀ fuel, (Block.new sha256hex 1 "1700000002994" (.arr [demoTx])
      "48c2aefc6d179fdee9d852023da0b679dc0dba8c0dd59ac5da61a8fe0fb252d5").mineBlock
      sha256hex fuel 65 = .outOfFuel :=
  ⟨by decide, ((mineBlock_never_returns_above_64 65 (by decide) 1 "1700000002994"
    (.arr [demoTx]) "48c2aefc6d179fdee9d852023da0b679dc0dba8c0dd59ac5da61a8fe0fb252d5").2.2.1
    (by decide)).2⟩

end PhoneChain
